import Mathlib

/-!
A shallow embedding of `src/simulator.py`: the `ChemicalReactionNetwork`
class (species extraction, rule parsing, stability test) and the
`run_simulation` loop.  Python strings are modelled as lists of
characters, Python `int` as `Int`, the random draws produced by
`random.sample` as an explicitly supplied list of ordered species
pairs, and the float returned by `run_simulation` as a rational number.
-/

namespace CRN

/-- Species identifiers are Python strings, modelled as character lists. -/
abbrev Ident := List Char

/-- Characters matched by `\s` in `re` and stripped by `str.strip`
(ASCII whitespace and the common Unicode line/paragraph separators;
the exotic Unicode space characters are outside the modelling scope). -/
def pyWS (c : Char) : Bool :=
  c = ' ' || c = '\t' || c = '\n' || c = '\r' || c = '\x0b' || c = '\x0c' ||
  c = '\x1c' || c = '\x1d' || c = '\x1e' || c = '\x1f' || c = '\x85' ||
  c = '\u2028' || c = '\u2029'

/-- Line boundaries of Python `str.splitlines` (same scope remark). -/
def isLineBreak (c : Char) : Bool :=
  c = '\n' || c = '\r' || c = '\x0b' || c = '\x0c' ||
  c = '\x1c' || c = '\x1d' || c = '\x1e' || c = '\x85' ||
  c = '\u2028' || c = '\u2029'

/-- A character rejected by the character class of
`re.findall(r'[^\s\+\->]+', crn_string)` (line 12): whitespace, `+`,
`-` or `>` — inside a character class `\->` denotes the two characters
`-` and `>` individually, not the arrow `->` as a unit. -/
def sepC (c : Char) : Bool := pyWS c || c = '+' || c = '-' || c = '>'

/-- `re.findall(r'[^\s\+\->]+', s)`: the maximal runs of non-separator
characters.  `acc` holds the current run, reversed. -/
def tokensAux : List Char → List Char → List Ident
  | [], acc => if acc = [] then [] else [acc.reverse]
  | c :: cs, acc =>
    if sepC c then
      if acc = [] then tokensAux cs [] else acc.reverse :: tokensAux cs []
    else tokensAux cs (c :: acc)

def findTokens (l : List Char) : List Ident := tokensAux l []

/-- Tokenizing as §3/§6 of the spec word it: splitting on whitespace,
`+`, and the two-character arrow `->` as a unit (so `-` and `>` on
their own are ordinary identifier characters). -/
def specTokensAux : List Char → List Char → List Ident
  | [], acc => if acc = [] then [] else [acc.reverse]
  | [c], acc =>
    if pyWS c || c = '+' then if acc = [] then [] else [acc.reverse]
    else [(c :: acc).reverse]
  | c1 :: c2 :: cs, acc =>
    if c1 = '-' ∧ c2 = '>' then
      if acc = [] then specTokensAux cs [] else acc.reverse :: specTokensAux cs []
    else if pyWS c1 || c1 = '+' then
      if acc = [] then specTokensAux (c2 :: cs) []
      else acc.reverse :: specTokensAux (c2 :: cs) []
    else specTokensAux (c2 :: cs) (c1 :: acc)

def specTokens (l : List Char) : List Ident := specTokensAux l []

/-- Python `half.split("+")` (empty pieces are kept). -/
def splitPlusAux : List Char → List Char → List (List Char)
  | [], acc => [acc.reverse]
  | c :: cs, acc =>
    if c = '+' then acc.reverse :: splitPlusAux cs []
    else splitPlusAux cs (c :: acc)

def splitPlus (l : List Char) : List (List Char) := splitPlusAux l []

/-- Python `line.split("->")`: split on the two-character arrow,
leftmost occurrence first. -/
def splitArrowAux : List Char → List Char → List (List Char)
  | [], acc => [acc.reverse]
  | [c], acc => [(c :: acc).reverse]
  | c1 :: c2 :: cs, acc =>
    if c1 = '-' ∧ c2 = '>' then acc.reverse :: splitArrowAux cs []
    else splitArrowAux (c2 :: cs) (c1 :: acc)

def splitArrow (l : List Char) : List (List Char) := splitArrowAux l []

/-- Python `str.strip()`. -/
def stripL (l : List Char) : List Char :=
  ((l.dropWhile pyWS).reverse.dropWhile pyWS).reverse

/-- Python `str.splitlines()` (`\r\n` counts as a single boundary). -/
def splitlinesAux : List Char → List Char → List (List Char)
  | [], acc => if acc = [] then [] else [acc.reverse]
  | [c], acc => if isLineBreak c then [acc.reverse] else [(c :: acc).reverse]
  | c1 :: c2 :: cs, acc =>
    if c1 = '\r' ∧ c2 = '\n' then acc.reverse :: splitlinesAux cs []
    else if isLineBreak c1 then acc.reverse :: splitlinesAux (c2 :: cs) []
    else splitlinesAux (c2 :: cs) (c1 :: acc)

def splitlines (l : List Char) : List (List Char) := splitlinesAux l []

/-- Python string comparison `a < b` (lexicographic on code points). -/
def lexLt : Ident → Ident → Bool
  | [], [] => false
  | [], _ :: _ => true
  | _ :: _, [] => false
  | a :: as, b :: bs => if a = b then lexLt as bs else decide (a < b)

/-- The non-strict order `sorted` sorts by. -/
def lexLe (a b : Ident) : Prop := lexLt a b = true ∨ a = b

instance : DecidableRel lexLe := fun a b => by unfold lexLe; infer_instance

/-- Python `sorted(set(l))`: the distinct elements of `l` in
increasing lexicographic order. -/
def sortDedup (l : List Ident) : List Ident := List.insertionSort lexLe l.dedup

/-- Python keywords (`keyword.kwlist`); `namedtuple` rejects them as
field names. -/
def pyKeywords : List Ident :=
  ["False", "None", "True", "and", "as", "assert", "async", "await",
   "break", "class", "continue", "def", "del", "elif", "else", "except",
   "finally", "for", "from", "global", "if", "import", "in", "is",
   "lambda", "nonlocal", "not", "or", "pass", "raise", "return", "try",
   "while", "with", "yield"].map String.data

/-- Identifier-continue characters: ASCII letters, digits, underscore;
non-ASCII characters are accepted wholesale (a superset of Python's
XID rules — no claim below distinguishes the difference). -/
def isIdentChar (c : Char) : Bool :=
  c.isAlphanum || c = '_' || decide (0x80 ≤ c.toNat)

/-- A name `namedtuple` accepts as a field: a non-keyword identifier
that does not start with an underscore or a digit. -/
def validField (s : Ident) : Bool :=
  match s with
  | [] => false
  | c :: cs =>
    (c.isAlpha || decide (0x80 ≤ c.toNat)) && cs.all isIdentChar &&
      !(pyKeywords.contains s)

/-- `Configuration(**Counter(items))`: the per-species multiset count
vector over the fixed species order. -/
def countVec (species : List Ident) (items : List Ident) : List Int :=
  species.map fun sp => (items.count sp : Int)

/-- `Configuration.__add__` (componentwise, `zip`-based). -/
def vadd (a b : List Int) : List Int := List.zipWith (· + ·) a b

/-- `Configuration.__sub__`. -/
def vsub (a b : List Int) : List Int := List.zipWith (· - ·) a b

/-- The all-zero configuration `Configuration()`. -/
def zeroVec (n : Nat) : List Int := List.replicate n 0

/-- The exceptions construction can actually raise — all of them
built-in Python errors; no `MalformedRuleError` or
`DuplicateRuleError` exists in the source. -/
inductive BuildError
  | invalidFieldName (name : Ident)
  | unpackMismatch (line : List Char)
  | unexpectedKeyword (name : Ident)
deriving DecidableEq, Repr

/-- Lines 22–25 of the source, for one line: split on `->` and unpack
into exactly two halves (a `ValueError` otherwise), split each half on
`+` and strip to get the ordered reactant and product identifiers,
then build `Configuration(**Counter(results)) -
Configuration(**Counter(reactants))` — a `TypeError` when a piece is
not a field of `Configuration`, i.e. not a member of `species`. -/
def parseLine (species : List Ident) (line : List Char) :
    Except BuildError (List Ident × List Int) :=
  match splitArrow line with
  | [g1, g2] =>
    match ((splitPlus g2).map stripL).find? (fun r => !(species.contains r)) with
    | some r => .error (.unexpectedKeyword r)
    | none =>
      match ((splitPlus g1).map stripL).find? (fun r => !(species.contains r)) with
      | some r => .error (.unexpectedKeyword r)
      | none =>
        .ok ((splitPlus g1).map stripL,
          vsub (countVec species ((splitPlus g2).map stripL))
               (countVec species ((splitPlus g1).map stripL)))
  | _ => .error (.unpackMismatch line)

/-- The per-line loop of `__init__`, stopping at the first failing line. -/
def parseLines (species : List Ident) :
    List (List Char) → Except BuildError (List (List Ident × List Int))
  | [] => .ok []
  | l :: ls =>
    match parseLine species l with
    | .error e => .error e
    | .ok r =>
      match parseLines species ls with
      | .error e => .error e
      | .ok rest => .ok (r :: rest)

/-- Python dict assignment `d[k] = v`: replace in place, or append. -/
def updateAssoc (m : List (List Ident × List Int)) (k : List Ident) (v : List Int) :
    List (List Ident × List Int) :=
  match m with
  | [] => [(k, v)]
  | (k0, v0) :: rest =>
    if k0 = k then (k, v) :: rest else (k0, v0) :: updateAssoc rest k v

/-- Python dict lookup without defaulting. -/
def lookupA (k : List Ident) : List (List Ident × List Int) → Option (List Int)
  | [] => none
  | (k0, v0) :: rest => if k0 = k then some v0 else lookupA k rest

/-- `self.reactions[reactants] = ...` folded over the parsed rules. -/
def buildReactions (rules : List (List Ident × List Int)) :
    List (List Ident × List Int) :=
  rules.foldl (fun m kv => updateAssoc m kv.1 kv.2) []

/-- The state `ChemicalReactionNetwork.__init__` leaves behind:
`self.species`, `self.reactions` (an insertion-ordered mapping) and
`self._minimal_reactants`. -/
structure Network where
  species : List Ident
  reactions : List (List Ident × List Int)
  minimal : List (List Int)
deriving DecidableEq, Repr

/-- `ChemicalReactionNetwork(crn_string)`.  The species are collected
by the regex over the whole string; `namedtuple` then validates every
field name; the rules are parsed per line of the stripped string; the
minimal-reactant list records `Configuration(**Counter(reactants))`
for every stored key, in mapping order. -/
def buildNetwork (s : String) : Except BuildError Network :=
  match (sortDedup (findTokens s.data)).find? (fun sp => !(validField sp)) with
  | some sp => .error (.invalidFieldName sp)
  | none =>
    match parseLines (sortDedup (findTokens s.data)) (splitlines (stripL s.data)) with
    | .error e => .error e
    | .ok rules =>
      .ok { species := sortDedup (findTokens s.data),
            reactions := buildReactions rules,
            minimal := (buildReactions rules).map fun kv =>
              countVec (sortDedup (findTokens s.data)) kv.1 }

/-- `is_stable` (lines 30–33):
`all(any(s < required_s for s, required_s in zip(config, required_config))
for required_config in self._minimal_reactants)`. -/
def isStable (minimal : List (List Int)) (config : List Int) : Bool :=
  minimal.all fun req => (config.zip req).any fun p => decide (p.1 < p.2)

/-- The position of species `x` in the canonical order (used to read its
count out of a configuration; `random.sample` consumes `counts`
positionally against `crn.species`). -/
def idxOf (sp : List Ident) (x : Ident) : Nat :=
  match sp with
  | [] => 0
  | y :: ys => if y = x then 0 else idxOf ys x + 1

/-- The outcome set of `random.sample(crn.species, counts=config, k=2)`:
the ordered label pair `(a, b)` can be drawn exactly when two distinct
individuals carrying those labels exist in the population. -/
def validDraw (species : List Ident) (config : List Int) (a b : Ident) : Bool :=
  decide (a ∈ species) && decide (b ∈ species) &&
    (if a = b then decide (2 ≤ config.getD (idxOf species a) 0)
     else decide (1 ≤ config.getD (idxOf species a) 0) &&
          decide (1 ≤ config.getD (idxOf species b) 0))

/-- `crn.reactions[sample]` on the `defaultdict`: return the stored
delta, or insert a zero vector under the missing key and return it. -/
def lookupIns (m : List (List Ident × List Int)) (k : List Ident) (n : Nat) :
    List Int × List (List Ident × List Int) :=
  match lookupA k m with
  | some v => (v, m)
  | none => (zeroVec n, m ++ [(k, zeroVec n)])

/-- The `while` loop of `run_simulation`, driven by an explicit list
of draws standing for the random stream.  Returns the final
interaction count, configuration and (possibly grown) reactions
mapping, or `none` when the supplied draws are exhausted or one of
them is impossible for the current population. -/
def simulate (species : List Ident) (minimal : List (List Int)) :
    List (List Ident × List Int) → List Int → Nat → List (Ident × Ident) →
    Option (Nat × List Int × List (List Ident × List Int))
  | m, config, n, [] => if isStable minimal config then some (n, config, m) else none
  | m, config, n, (a, b) :: rest =>
    if isStable minimal config then some (n, config, m)
    else if validDraw species config a b then
      simulate species minimal (lookupIns m [a, b] species.length).2
        (vadd config (lookupIns m [a, b] species.length).1) (n + 1) rest
    else none

/-- Python `sum`. -/
def sumList (l : List Int) : Int := l.foldr (· + ·) 0

/-- `Configuration(*initial_config)`: trailing species default to 0. -/
def padConfig (n : Nat) (initial : List Int) : List Int :=
  initial ++ zeroVec (n - initial.length)

/-- `run_simulation` (lines 35–42).  `none` when `initial_config` is
longer than the species list (a `TypeError` in Python) or the modelled
draw stream gives out; the returned float is modelled as a rational:
`interactions / (sum(initial_config) or 1)`. -/
def runSimulation (net : Network) (initial : List Int)
    (draws : List (Ident × Ident)) : Option ℚ :=
  if net.species.length < initial.length then none
  else
    match simulate net.species net.minimal net.reactions
        (padConfig net.species.length initial) 0 draws with
    | some r =>
      some ((r.1 : ℚ) / (((if sumList initial = 0 then 1 else sumList initial) : Int) : ℚ))
    | none => none

/-- Every entry of a configuration is non-negative. -/
def allNonneg (c : List Int) : Bool := c.all fun x => decide (0 ≤ x)

/-- The states `(reactions, config)` the `run_simulation` loop body
can reach from a starting state, one interaction at a time. -/
inductive Reach (species : List Ident) (minimal : List (List Int)) :
    List (List Ident × List Int) × List Int →
    List (List Ident × List Int) × List Int → Prop
  | refl (s) : Reach species minimal s s
  | step {s m config a b} :
      Reach species minimal s (m, config) →
      isStable minimal config = false →
      validDraw species config a b = true →
      Reach species minimal s
        ((lookupIns m [a, b] species.length).2,
         vadd config (lookupIns m [a, b] species.length).1)

/-- The two-species demonstration network `A+A->B+B`
(species `["A", "B"]` in sorted order). -/
def netAA : Network :=
  { species := [['A'], ['B']],
    reactions := [([['A'], ['A']], [-2, 2])],
    minimal := [[2, 0]] }

/-- What building `"A+B->A+U\nA+B->B+U"` produces: the duplicated
ordered pair `("A", "B")` silently keeps the second line's delta. -/
def netDup : Network :=
  { species := [['A'], ['B'], ['U']],
    reactions := [([['A'], ['B']], [-1, 0, 1])],
    minimal := [[1, 1, 0]] }

/-- The two parsed rules of `"A+B->A+U\nA+B->B+U"` before the mapping
collapses the duplicate key. -/
def rulesDup : List (List Ident × List Int) :=
  [([['A'], ['B']], [0, -1, 1]), ([['A'], ['B']], [-1, 0, 1])]

/-- Invariant on a reactions mapping: every stored delta has the
species dimension and never subtracts more of any species than its own
key's reactant multiset contains. -/
def DeltaBound (sp : List Ident) (m : List (List Ident × List Int)) : Prop :=
  ∀ kv ∈ m, kv.2.length = sp.length ∧
    ∀ i, -((countVec sp kv.1).getD i 0) ≤ kv.2.getD i 0

/-- Character lists in which `-` and `>` occur only as the adjacent
pair `->`; on such lists the regex tokenizer of the source and the
arrow-aware tokenizer of the spec agree. -/
inductive ArrowTame : List Char → Prop
  | nil : ArrowTame []
  | cons {c : Char} {l : List Char} : c ≠ '-' → c ≠ '>' → ArrowTame l →
      ArrowTame (c :: l)
  | arrow {l : List Char} : ArrowTame l → ArrowTame ('-' :: '>' :: l)

/-- Re-join pieces with the arrow `->`: the inverse of `splitArrow`. -/
def joinArrow : List (List Char) → List Char
  | [] => []
  | [p] => p
  | p :: q :: ps => p ++ '-' :: '>' :: joinArrow (q :: ps)

/-! ### Basic facts about the vector operations -/

theorem vadd_length (a b : List Int) : (vadd a b).length = min a.length b.length :=
  List.length_zipWith ..

theorem vsub_length (a b : List Int) : (vsub a b).length = min a.length b.length :=
  List.length_zipWith ..

@[simp] theorem countVec_length (sp items : List Ident) :
    (countVec sp items).length = sp.length := List.length_map ..

@[simp] theorem zeroVec_length (n : Nat) : (zeroVec n).length = n :=
  List.length_replicate ..

theorem countVec_getD (sp items : List Ident) (i : Nat) (hi : i < sp.length) :
    (countVec sp items).getD i 0 = (items.count (sp.getD i []) : Int) := by
  rw [List.getD_eq_getElem _ _ (by simpa using hi), List.getD_eq_getElem _ _ hi]
  simp [countVec]

theorem countVec_nonneg (sp items : List Ident) (i : Nat) :
    0 ≤ (countVec sp items).getD i 0 := by
  by_cases hi : i < sp.length
  · rw [countVec_getD sp items i hi]; positivity
  · rw [List.getD_eq_default _ _ (by simpa using Nat.le_of_not_lt hi)]

theorem vadd_getD (a b : List Int) (i : Nat) (hi : i < a.length) (hb : a.length = b.length) :
    (vadd a b).getD i 0 = a.getD i 0 + b.getD i 0 := by
  have hib : i < b.length := hb ▸ hi
  have hiz : i < (vadd a b).length := by rw [vadd_length]; omega
  rw [List.getD_eq_getElem _ _ hiz, List.getD_eq_getElem _ _ hi, List.getD_eq_getElem _ _ hib]
  simp [vadd]

theorem vsub_getD (a b : List Int) (i : Nat) (hi : i < a.length) (hb : a.length = b.length) :
    (vsub a b).getD i 0 = a.getD i 0 - b.getD i 0 := by
  have hib : i < b.length := hb ▸ hi
  have hiz : i < (vsub a b).length := by rw [vsub_length]; omega
  rw [List.getD_eq_getElem _ _ hiz, List.getD_eq_getElem _ _ hi, List.getD_eq_getElem _ _ hib]
  simp [vsub]

@[simp] theorem zeroVec_getD (n i : Nat) : (zeroVec n).getD i 0 = 0 := by
  by_cases hi : i < n
  · rw [List.getD_eq_getElem _ _ (by simpa using hi)]; simp [zeroVec]
  · rw [List.getD_eq_default]; simpa using hi

theorem vadd_zero (c : List Int) (n : Nat) (h : c.length = n) : vadd c (zeroVec n) = c := by
  subst h
  induction c with
  | nil => rfl
  | cons x xs ih => simpa [vadd, zeroVec, List.replicate_succ] using ih

/-! ### Facts about the association-list reaction mapping -/

theorem lookupA_mem {k : List Ident} {v : List Int} {m : List (List Ident × List Int)}
    (h : lookupA k m = some v) : (k, v) ∈ m := by
  induction m with
  | nil => simp [lookupA] at h
  | cons kv rest ih =>
    rcases kv with ⟨k0, v0⟩
    by_cases hk : k0 = k
    · subst hk
      simp [lookupA] at h
      simp [h]
    · simp [lookupA, hk] at h
      exact List.mem_cons_of_mem _ (ih h)

theorem lookupA_updateAssoc (m : List (List Ident × List Int)) (k0 k : List Ident)
    (v : List Int) :
    lookupA k (updateAssoc m k0 v) = if k0 = k then some v else lookupA k m := by
  induction m with
  | nil => by_cases h : k0 = k <;> simp [updateAssoc, lookupA, h]
  | cons kv rest ih =>
    rcases kv with ⟨k1, v1⟩
    by_cases h1 : k1 = k0
    · subst h1
      by_cases h : k1 = k <;> simp [updateAssoc, lookupA, h]
    · by_cases h : k0 = k
      · subst h
        simp [updateAssoc, h1, lookupA, ih, fun hh : k1 = k0 => h1 hh]
      · simp only [updateAssoc, if_neg h1, lookupA, ih, if_neg h]

theorem mem_updateAssoc {kv : List Ident × List Int} {m : List (List Ident × List Int)}
    {k : List Ident} {v : List Int} (h : kv ∈ updateAssoc m k v) :
    kv ∈ m ∨ kv = (k, v) := by
  induction m with
  | nil => simp [updateAssoc] at h; simp [h]
  | cons kv0 rest ih =>
    rcases kv0 with ⟨k1, v1⟩
    by_cases h1 : k1 = k
    · subst h1
      simp [updateAssoc] at h
      rcases h with h | h
      · right; simp [h]
      · left; exact List.mem_cons_of_mem _ h
    · simp [updateAssoc, h1] at h
      rcases h with h | h
      · left; simp [h]
      · rcases ih h with h2 | h2
        · left; exact List.mem_cons_of_mem _ h2
        · right; exact h2

theorem mem_foldl_updateAssoc {kv : List Ident × List Int}
    {rules m0 : List (List Ident × List Int)}
    (h : kv ∈ rules.foldl (fun m r => updateAssoc m r.1 r.2) m0) :
    kv ∈ m0 ∨ kv ∈ rules := by
  induction rules generalizing m0 with
  | nil => simp at h; simp [h]
  | cons r rest ih =>
    simp only [List.foldl_cons] at h
    rcases ih h with h2 | h2
    · rcases mem_updateAssoc h2 with h3 | h3
      · simp [h3]
      · right; simp [h3]
    · right; exact List.mem_cons_of_mem _ h2

theorem mem_buildReactions {kv : List Ident × List Int}
    {rules : List (List Ident × List Int)} (h : kv ∈ buildReactions rules) :
    kv ∈ rules := by
  rcases mem_foldl_updateAssoc h with h2 | h2
  · simp at h2
  · exact h2

theorem lookupA_foldl_updateAssoc (rules : List (List Ident × List Int))
    (m0 : List (List Ident × List Int)) (k : List Ident) :
    lookupA k (rules.foldl (fun m r => updateAssoc m r.1 r.2) m0) =
      match rules.reverse.find? (fun r => decide (r.1 = k)) with
      | some r => some r.2
      | none => lookupA k m0 := by
  induction rules generalizing m0 with
  | nil => simp
  | cons r rest ih =>
    simp only [List.foldl_cons, List.reverse_cons, ih, List.find?_append]
    rcases hf : rest.reverse.find? (fun r => decide (r.1 = k)) with _ | r2
    · by_cases hk : r.1 = k <;>
        simp [hf, List.find?, hk, lookupA_updateAssoc, Option.or]
    · simp [hf, Option.or]

/-! ### Parsing facts -/

theorem parseLine_ok {sp : List Ident} {line : List Char} {ks : List Ident} {d : List Int}
    (h : parseLine sp line = .ok (ks, d)) :
    ∃ g1 g2, splitArrow line = [g1, g2] ∧
      ks = (splitPlus g1).map stripL ∧ (∀ x ∈ ks, x ∈ sp) ∧
      ∃ res, res = (splitPlus g2).map stripL ∧ (∀ x ∈ res, x ∈ sp) ∧
        d = vsub (countVec sp res) (countVec sp ks) := by
  unfold parseLine at h
  split at h
  case _ g1 g2 harr =>
    refine ⟨g1, g2, harr, ?_⟩
    split at h
    case _ r hr => exact absurd h (by simp)
    case _ hres =>
      split at h
      case _ r hr => exact absurd h (by simp)
      case _ hrea =>
        simp only [Except.ok.injEq, Prod.mk.injEq] at h
        have hmemr : ∀ x ∈ (splitPlus g1).map stripL, x ∈ sp := by
          intro x hx
          have := List.find?_eq_none.mp hrea x hx
          simpa using this
        have hmemp : ∀ x ∈ (splitPlus g2).map stripL, x ∈ sp := by
          intro x hx
          have := List.find?_eq_none.mp hres x hx
          simpa using this
        exact ⟨h.1.symm, by rw [← h.1]; exact hmemr,
          (splitPlus g2).map stripL, rfl, hmemp, by rw [← h.1, ← h.2]⟩
  case _ => exact absurd h (by simp)

theorem parseLines_mem {sp : List Ident} {lines : List (List Char)}
    {rules : List (List Ident × List Int)} (h : parseLines sp lines = .ok rules) :
    ∀ kv ∈ rules, ∃ line ∈ lines, parseLine sp line = .ok kv := by
  induction lines generalizing rules with
  | nil =>
    simp only [parseLines, Except.ok.injEq] at h
    subst h; simp
  | cons l ls ih =>
    unfold parseLines at h
    split at h
    case h_1 => exact absurd h (by simp)
    case h_2 r hr =>
      split at h
      case h_1 => exact absurd h (by simp)
      case h_2 rest hrest =>
        simp only [Except.ok.injEq] at h
        subst h
        intro kv hkv
        rcases List.mem_cons.mp hkv with h2 | h2
        · exact ⟨l, by simp, h2 ▸ hr⟩
        · rcases ih hrest kv h2 with ⟨line, hl, he⟩
          exact ⟨line, List.mem_cons_of_mem _ hl, he⟩

theorem parseLines_ok_forall {sp : List Ident} {lines : List (List Char)}
    {rules : List (List Ident × List Int)} (h : parseLines sp lines = .ok rules) :
    ∀ line ∈ lines, ∃ r, parseLine sp line = .ok r := by
  induction lines generalizing rules with
  | nil => simp
  | cons l ls ih =>
    unfold parseLines at h
    split at h
    case h_1 => exact absurd h (by simp)
    case h_2 r hr =>
      split at h
      case h_1 => exact absurd h (by simp)
      case h_2 rest hrest =>
        intro line hline
        rcases List.mem_cons.mp hline with h2 | h2
        · exact ⟨r, h2 ▸ hr⟩
        · exact ih hrest line h2

/-- Everything `buildNetwork s = .ok net` tells us about `net`. -/
theorem buildNetwork_ok {s : String} {net : Network}
    (h : buildNetwork s = .ok net) :
    net.species = sortDedup (findTokens s.data) ∧
    (∀ sp ∈ net.species, validField sp = true) ∧
    ∃ rules, parseLines net.species (splitlines (stripL s.data)) = .ok rules ∧
      net.reactions = buildReactions rules ∧
      net.minimal = (buildReactions rules).map fun kv => countVec net.species kv.1 := by
  unfold buildNetwork at h
  split at h
  case h_1 => exact absurd h (by simp)
  case h_2 hfind =>
    split at h
    case h_1 => exact absurd h (by simp)
    case h_2 rules hrules =>
      simp only [Except.ok.injEq] at h
      subst h
      refine ⟨rfl, ?_, rules, hrules, rfl, rfl⟩
      intro sp hsp
      have := List.find?_eq_none.mp hfind sp hsp
      simpa using this

/-! ### The lexicographic order and `sortDedup` -/

theorem lexLt_irrefl (a : Ident) : lexLt a a = false := by
  induction a with
  | nil => rfl
  | cons c cs ih => simp [lexLt, ih]

theorem lexLt_trans {a b c : Ident} (h1 : lexLt a b = true) (h2 : lexLt b c = true) :
    lexLt a c = true := by
  induction a generalizing b c with
  | nil =>
    cases b with
    | nil => simp [lexLt] at h1
    | cons y ys =>
      cases c with
      | nil => simp [lexLt] at h2
      | cons z zs => simp [lexLt]
  | cons x xs ih =>
    cases b with
    | nil => simp [lexLt] at h1
    | cons y ys =>
      cases c with
      | nil => simp [lexLt] at h2
      | cons z zs =>
        by_cases hxy : x = y
        · subst hxy
          by_cases hyz : x = z
          · subst hyz
            simp only [lexLt, if_pos rfl] at h1 h2 ⊢
            exact ih h1 h2
          · simp only [lexLt, if_pos rfl] at h1
            simpa only [lexLt, if_neg hyz] using h2
        · by_cases hyz : y = z
          · subst hyz
            simpa only [lexLt, if_neg hxy] using h1
          · simp only [lexLt, if_neg hxy] at h1
            simp only [lexLt, if_neg hyz] at h2
            have hlt := lt_trans (of_decide_eq_true h1) (of_decide_eq_true h2)
            by_cases hxz : x = z
            · exact absurd (hxz ▸ hlt) (lt_irrefl x)
            · simp only [lexLt, if_neg hxz]
              exact decide_eq_true hlt

theorem lexLt_total_of_ne {a b : Ident} (h : a ≠ b) :
    lexLt a b = true ∨ lexLt b a = true := by
  induction a generalizing b with
  | nil =>
    cases b with
    | nil => exact absurd rfl h
    | cons y ys => left; rfl
  | cons x xs ih =>
    cases b with
    | nil => right; rfl
    | cons y ys =>
      by_cases hxy : x = y
      · subst hxy
        have hne : xs ≠ ys := fun he => h (by rw [he])
        rcases ih hne with h2 | h2
        · left; simpa [lexLt] using h2
        · right; simpa [lexLt] using h2
      · rcases lt_or_gt_of_ne hxy with h2 | h2
        · left; simp [lexLt, hxy, h2]
        · right
          have hyx : ¬y = x := fun he => hxy he.symm
          have h3 : y < x := h2
          simp [lexLt, hyx, h3]

instance : IsTotal Ident lexLe :=
  ⟨fun a b => by
    by_cases h : a = b
    · exact Or.inl (Or.inr h)
    · rcases lexLt_total_of_ne h with h2 | h2
      · exact Or.inl (Or.inl h2)
      · exact Or.inr (Or.inl h2)⟩

instance : IsTrans Ident lexLe :=
  ⟨fun a b c h1 h2 => by
    rcases h1 with h1 | h1
    · rcases h2 with h2 | h2
      · exact Or.inl (lexLt_trans h1 h2)
      · exact h2 ▸ Or.inl h1
    · exact h1 ▸ h2⟩

theorem sortDedup_perm (l : List Ident) : List.Perm (sortDedup l) l.dedup :=
  List.perm_insertionSort lexLe l.dedup

theorem sortDedup_nodup (l : List Ident) : (sortDedup l).Nodup :=
  ((sortDedup_perm l).nodup_iff).mpr l.nodup_dedup

theorem mem_sortDedup {x : Ident} {l : List Ident} : x ∈ sortDedup l ↔ x ∈ l := by
  rw [(sortDedup_perm l).mem_iff, List.mem_dedup]

theorem sortDedup_sorted (l : List Ident) : List.Sorted lexLe (sortDedup l) :=
  List.sorted_insertionSort lexLe l.dedup

theorem sortDedup_pairwise (l : List Ident) :
    (sortDedup l).Pairwise fun a b => lexLt a b = true := by
  have h1 : (sortDedup l).Pairwise fun a b => lexLe a b ∧ a ≠ b :=
    List.Pairwise.and (sortDedup_sorted l) (sortDedup_nodup l)
  refine h1.imp ?_
  rintro a b ⟨hle | hle, hne⟩
  · exact hle
  · exact absurd hle hne

/-! ### Characterizing `is_stable` -/

theorem zip_any_lt {a b : List Int} (h : a.length = b.length) :
    ((a.zip b).any fun p => decide (p.1 < p.2)) = true ↔
      ∃ i < a.length, a.getD i 0 < b.getD i 0 := by
  induction a generalizing b with
  | nil =>
    cases b with
    | nil => simp
    | cons y ys => simp at h
  | cons x xs ih =>
    cases b with
    | nil => simp at h
    | cons y ys =>
      have hlen : xs.length = ys.length := by simpa using h
      simp only [List.zip_cons_cons, List.any_cons, Bool.or_eq_true, decide_eq_true_eq,
        ih hlen]
      constructor
      · rintro (hxy | ⟨i, hi, hlt⟩)
        · exact ⟨0, by simp, by simpa using hxy⟩
        · exact ⟨i + 1, by simpa using Nat.succ_lt_succ hi, by simpa using hlt⟩
      · rintro ⟨i, hi, hlt⟩
        cases i with
        | zero => left; simpa using hlt
        | succ j =>
          right
          exact ⟨j, by simpa using Nat.lt_of_succ_lt_succ hi, by simpa using hlt⟩

theorem isStable_true_iff {minimal : List (List Int)} {config : List Int}
    (hlen : ∀ req ∈ minimal, req.length = config.length) :
    isStable minimal config = true ↔
      ∀ req ∈ minimal, ∃ i < config.length, config.getD i 0 < req.getD i 0 := by
  unfold isStable
  rw [List.all_eq_true]
  exact ⟨fun h req hreq => (zip_any_lt (hlen req hreq).symm).mp (h req hreq),
         fun h req hreq => (zip_any_lt (hlen req hreq).symm).mpr (h req hreq)⟩

theorem isStable_false_iff {minimal : List (List Int)} {config : List Int}
    (hlen : ∀ req ∈ minimal, req.length = config.length) :
    isStable minimal config = false ↔
      ∃ req ∈ minimal, ∀ i < config.length, req.getD i 0 ≤ config.getD i 0 := by
  rw [Bool.eq_false_iff, ne_eq, isStable_true_iff hlen]
  push_neg
  rfl

/-! ### Sums of configurations -/

@[simp] theorem sumList_nil : sumList [] = 0 := rfl

@[simp] theorem sumList_cons (x : Int) (xs : List Int) :
    sumList (x :: xs) = x + sumList xs := rfl

theorem sumList_nonneg {l : List Int} (h : ∀ x ∈ l, 0 ≤ x) : 0 ≤ sumList l := by
  induction l with
  | nil => simp
  | cons x xs ih =>
    have h1 := h x (by simp)
    have h2 := ih fun y hy => h y (List.mem_cons_of_mem _ hy)
    simp only [sumList_cons]
    omega

theorem sumList_le_of_pointwise {a b : List Int} (hlen : a.length = b.length)
    (h : ∀ i < a.length, a.getD i 0 ≤ b.getD i 0) : sumList a ≤ sumList b := by
  induction a generalizing b with
  | nil =>
    cases b with
    | nil => exact le_refl _
    | cons y ys => simp at hlen
  | cons x xs ih =>
    cases b with
    | nil => simp at hlen
    | cons y ys =>
      have h0 := h 0 (by simp)
      simp only [List.getD_cons_zero] at h0
      have hrest : ∀ i < xs.length, xs.getD i 0 ≤ ys.getD i 0 := by
        intro i hi
        have := h (i + 1) (by simpa using Nat.succ_lt_succ hi)
        simpa using this
      have h2 := ih (by simpa using hlen) hrest
      simp only [sumList_cons]
      omega

theorem sumList_map_const_zero {α : Type} (l : List α) :
    sumList (l.map fun _ => (0 : Int)) = 0 := by
  induction l with
  | nil => rfl
  | cons a rest ih => simp only [List.map_cons, sumList_cons, ih]; omega

theorem sumList_map_ite_zero {l : List Ident} {t : Ident} (h : ∀ s ∈ l, s ≠ t) :
    sumList (l.map fun s => if s = t then (1 : Int) else 0) = 0 := by
  induction l with
  | nil => rfl
  | cons a rest ih =>
    have ha := h a (by simp)
    simp only [List.map_cons, sumList_cons, if_neg ha]
    rw [ih fun s hs => h s (List.mem_cons_of_mem _ hs)]
    omega

theorem sumList_map_ite {sp : List Ident} {t : Ident} (hnd : sp.Nodup) (ht : t ∈ sp) :
    sumList (sp.map fun s => if s = t then (1 : Int) else 0) = 1 := by
  induction sp with
  | nil => simp at ht
  | cons a rest ih =>
    rcases List.nodup_cons.mp hnd with ⟨hna, hndr⟩
    rcases List.mem_cons.mp ht with h | h
    · subst h
      simp only [List.map_cons, sumList_cons, if_pos rfl]
      rw [sumList_map_ite_zero fun s hs he => hna (by rwa [he] at hs)]
      simp
    · have hat : a ≠ t := fun he => hna (by rwa [← he] at h)
      simp only [List.map_cons, sumList_cons, if_neg hat]
      rw [ih hndr h]
      omega

theorem sumList_map_add {α : Type} (l : List α) (f g : α → Int) :
    sumList (l.map fun s => f s + g s) = sumList (l.map f) + sumList (l.map g) := by
  induction l with
  | nil => rfl
  | cons a rest ih =>
    simp only [List.map_cons, sumList_cons, ih]
    ring

theorem sumList_countVec {sp items : List Ident} (hnd : sp.Nodup)
    (hsub : ∀ t ∈ items, t ∈ sp) :
    sumList (countVec sp items) = (items.length : Int) := by
  induction items with
  | nil =>
    have h1 : countVec sp [] = sp.map fun _ => (0 : Int) := by simp [countVec]
    rw [h1, sumList_map_const_zero]
    simp
  | cons t ts ih =>
    have hstep : countVec sp (t :: ts) =
        sp.map fun s => (ts.count s : Int) + (if s = t then 1 else 0) := by
      unfold countVec
      refine List.map_congr_left ?_
      intro s hs
      rw [List.count_cons]
      by_cases hst : s = t
      · simp [hst]
      · simp [hst, Ne.symm hst]
    rw [hstep, sumList_map_add]
    have h1 : sp.map (fun s => ((ts.count s : Nat) : Int)) = countVec sp ts := rfl
    rw [h1, ih fun x hx => hsub x (List.mem_cons_of_mem _ hx),
      sumList_map_ite hnd (hsub t (by simp))]
    simp only [List.length_cons]
    push_cast
    ring

/-! ### Index helpers -/

theorem idxOf_lt {sp : List Ident} {x : Ident} (h : x ∈ sp) :
    idxOf sp x < sp.length := by
  induction sp with
  | nil => simp at h
  | cons y ys ih =>
    by_cases hy : y = x
    · simp [idxOf, hy]
    · have hx : x ∈ ys := by
        rcases List.mem_cons.mp h with h2 | h2
        · exact absurd h2.symm hy
        · exact h2
      simp only [idxOf, if_neg hy, List.length_cons]
      exact Nat.succ_lt_succ (ih hx)

theorem getD_idxOf {sp : List Ident} {x : Ident} (h : x ∈ sp) :
    sp.getD (idxOf sp x) [] = x := by
  induction sp with
  | nil => simp at h
  | cons y ys ih =>
    by_cases hy : y = x
    · simp [idxOf, hy]
    · have hx : x ∈ ys := by
        rcases List.mem_cons.mp h with h2 | h2
        · exact absurd h2.symm hy
        · exact h2
      simp only [idxOf, if_neg hy, List.getD_cons_succ]
      exact ih hx

theorem getD_mem {sp : List Ident} {i : Nat} (hi : i < sp.length) :
    sp.getD i [] ∈ sp := by
  rw [List.getD_eq_getElem _ _ hi]
  exact List.getElem_mem hi

theorem idxOf_getD {sp : List Ident} (hnd : sp.Nodup) {i : Nat}
    (hi : i < sp.length) : idxOf sp (sp.getD i []) = i := by
  induction sp generalizing i with
  | nil => simp at hi
  | cons y ys ih =>
    rcases List.nodup_cons.mp hnd with ⟨hny, hnd2⟩
    cases i with
    | zero => simp [idxOf]
    | succ j =>
      have hj : j < ys.length := by simpa using Nat.lt_of_succ_lt_succ hi
      have hmem : ys.getD j [] ∈ ys := getD_mem hj
      have hy : ¬ y = ys.getD j [] := fun he => hny (he ▸ hmem)
      simp only [List.getD_cons_succ, idxOf, if_neg hy]
      rw [ih hnd2 hj]

/-! ### Derived facts about built networks -/

theorem splitPlusAux_ne_nil (l acc : List Char) : splitPlusAux l acc ≠ [] := by
  induction l generalizing acc with
  | nil => simp [splitPlusAux]
  | cons c cs ih =>
    by_cases hc : c = '+' <;> simp [splitPlusAux, hc, ih]

theorem buildNetwork_species_nodup {s : String} {net : Network}
    (h : buildNetwork s = .ok net) : net.species.Nodup := by
  rcases buildNetwork_ok h with ⟨hs, _⟩
  rw [hs]
  exact sortDedup_nodup _

theorem buildNetwork_reactions_spec {s : String} {net : Network}
    (h : buildNetwork s = .ok net) :
    ∀ kv ∈ net.reactions, kv.1 ≠ [] ∧ (∀ x ∈ kv.1, x ∈ net.species) ∧
      kv.2.length = net.species.length ∧
      ∃ res, (∀ x ∈ res, x ∈ net.species) ∧
        kv.2 = vsub (countVec net.species res) (countVec net.species kv.1) := by
  rcases buildNetwork_ok h with ⟨hs, hvf, rules, hrules, hre, hmin⟩
  intro kv hkv
  rw [hre] at hkv
  rcases parseLines_mem hrules kv (mem_buildReactions hkv) with ⟨line, hline, hpl⟩
  rcases kv with ⟨ks, d⟩
  rcases parseLine_ok hpl with ⟨g1, g2, harr, hks, hksmem, res, hres, hresmem, hd⟩
  refine ⟨?_, hksmem, ?_, res, hresmem, hd⟩
  · rw [hks]
    intro hc
    exact splitPlusAux_ne_nil g1 [] (List.map_eq_nil.mp hc)
  · rw [hd, vsub_length, countVec_length, countVec_length, Nat.min_self]

theorem buildNetwork_minimal_spec {s : String} {net : Network}
    (h : buildNetwork s = .ok net) :
    net.minimal = net.reactions.map fun kv => countVec net.species kv.1 := by
  rcases buildNetwork_ok h with ⟨hs, hvf, rules, hrules, hre, hmin⟩
  rw [hmin, hre]

theorem buildNetwork_minimal_mem {s : String} {net : Network}
    (h : buildNetwork s = .ok net) :
    ∀ req ∈ net.minimal, req.length = net.species.length ∧
      ∃ kv ∈ net.reactions, req = countVec net.species kv.1 := by
  rw [buildNetwork_minimal_spec h]
  intro req hreq
  rcases List.mem_map.mp hreq with ⟨kv, hkv, he⟩
  exact ⟨he ▸ countVec_length _ _, kv, hkv, he.symm⟩

/-- A stable configuration makes the loop return immediately with the
current interaction count, configuration and mapping. -/
theorem simulate_stable {species : List Ident} {minimal : List (List Int)}
    {m : List (List Ident × List Int)} {config : List Int} {n : Nat}
    {draws : List (Ident × Ident)} (h : isStable minimal config = true) :
    simulate species minimal m config n draws = some (n, config, m) := by
  cases draws with
  | nil => simp [simulate, h]
  | cons d rest =>
    rcases d with ⟨a, b⟩
    simp [simulate, h]

theorem padConfig_length {n : Nat} {initial : List Int} (h : initial.length ≤ n) :
    (padConfig n initial).length = n := by
  simp only [padConfig, List.length_append, zeroVec_length]
  omega

theorem getD_zero_of_all_zero {l : List Int} (hz : ∀ x ∈ l, x = 0) (i : Nat) :
    l.getD i 0 = 0 := by
  by_cases hi : i < l.length
  · rw [List.getD_eq_getElem _ _ hi]
    exact hz _ (List.getElem_mem hi)
  · rw [List.getD_eq_default _ _ (Nat.le_of_not_lt hi)]

/-- Any all-zero configuration of the right dimension is stable for a
built network: every stored rule has a nonempty reactant list, whose
head species must be under-supplied. -/
theorem isStable_zero_config {s : String} {net : Network} {config : List Int}
    (hnet : buildNetwork s = .ok net)
    (hlen : config.length = net.species.length)
    (hz : ∀ x ∈ config, x = 0) :
    isStable net.minimal config = true := by
  have hreq : ∀ req ∈ net.minimal, req.length = config.length := fun req hr =>
    (buildNetwork_minimal_mem hnet req hr).1.trans hlen.symm
  rw [isStable_true_iff hreq]
  intro req hreq2
  rcases (buildNetwork_minimal_mem hnet req hreq2).2 with ⟨kv, hkv, he⟩
  rcases buildNetwork_reactions_spec hnet kv hkv with ⟨hne, hmem, _⟩
  rcases List.exists_cons_of_ne_nil hne with ⟨x, ks, hx⟩
  have hxmem : x ∈ kv.1 := by rw [hx]; simp
  have hxsp : x ∈ net.species := hmem x hxmem
  refine ⟨idxOf net.species x, ?_, ?_⟩
  · rw [hlen]
    exact idxOf_lt hxsp
  · rw [getD_zero_of_all_zero hz, he,
      countVec_getD _ _ _ (idxOf_lt hxsp), getD_idxOf hxsp]
    have hcount : 0 < kv.1.count x := List.count_pos_iff.mpr hxmem
    exact_mod_cast hcount

theorem sumList_zero_all_zero {l : List Int} (hpos : ∀ x ∈ l, 0 ≤ x)
    (h0 : sumList l = 0) : ∀ x ∈ l, x = 0 := by
  induction l with
  | nil => simp
  | cons x xs ih =>
    have hx := hpos x (by simp)
    have hxs : 0 ≤ sumList xs := sumList_nonneg fun y hy => hpos y (List.mem_cons_of_mem _ hy)
    simp only [sumList_cons] at h0
    intro y hy
    rcases List.mem_cons.mp hy with h | h
    · omega
    · exact ih (fun y hy => hpos y (List.mem_cons_of_mem _ hy)) (by omega) y h

/-! ### The claims -/

/-- C1: for every network and every configuration of the network's
dimension, `is_stable(config)` returns true iff for every minimal
requirement vector there is a species index at which the configuration
is strictly below the requirement, and returns false iff some
requirement vector is componentwise ≤ the configuration. -/
theorem C1_isStable_characterization
    (s : String) (net : Network) (config : List Int)
    (hnet : buildNetwork s = Except.ok net)
    (hlen : config.length = net.species.length) :
    (isStable net.minimal config = true ↔
      ∀ req ∈ net.minimal, ∃ i < config.length, config.getD i 0 < req.getD i 0) ∧
    (isStable net.minimal config = false ↔
      ∃ req ∈ net.minimal, ∀ i < config.length, req.getD i 0 ≤ config.getD i 0) := by
  have hreq : ∀ req ∈ net.minimal, req.length = config.length := fun req hr =>
    (buildNetwork_minimal_mem hnet req hr).1.trans hlen.symm
  exact ⟨isStable_true_iff hreq, isStable_false_iff hreq⟩

/-- Witness for C1: the network `A+A->B+B` with configuration `[1, 0]`. -/
theorem C1_isStable_characterization_witness :
    buildNetwork "A+A->B+B" = Except.ok netAA ∧
    ([1, 0] : List Int).length = netAA.species.length ∧
    ((isStable netAA.minimal [1, 0] = true ↔
      ∀ req ∈ netAA.minimal, ∃ i < ([1, 0] : List Int).length,
        ([1, 0] : List Int).getD i 0 < req.getD i 0) ∧
     (isStable netAA.minimal [1, 0] = false ↔
      ∃ req ∈ netAA.minimal, ∀ i < ([1, 0] : List Int).length,
        req.getD i 0 ≤ ([1, 0] : List Int).getD i 0)) :=
  ⟨by rfl, by rfl,
    C1_isStable_characterization "A+A->B+B" netAA [1, 0] (by rfl) (by rfl)⟩

/-- C8: in a simulation step whose drawn ordered pair has no rule in
the mapping, the applied delta is the zero vector — the configuration
passed on is unchanged — while the interaction count still increments
(and, faithfully to the `defaultdict`, the missing pair is inserted
with a zero delta). -/
theorem C8_missing_pair_zero_delta
    (species : List Ident) (minimal : List (List Int))
    (m : List (List Ident × List Int)) (config : List Int) (n : Nat)
    (a b : Ident) (rest : List (Ident × Ident))
    (hmiss : lookupA [a, b] m = none)
    (hunst : isStable minimal config = false)
    (hdraw : validDraw species config a b = true)
    (hlen : config.length = species.length) :
    (lookupIns m [a, b] species.length).1 = zeroVec species.length ∧
    vadd config (lookupIns m [a, b] species.length).1 = config ∧
    simulate species minimal m config n ((a, b) :: rest) =
      simulate species minimal (m ++ [([a, b], zeroVec species.length)])
        config (n + 1) rest := by
  have h1 : lookupIns m [a, b] species.length =
      (zeroVec species.length, m ++ [([a, b], zeroVec species.length)]) := by
    unfold lookupIns
    rw [hmiss]
  have h2 : vadd config (zeroVec species.length) = config := vadd_zero config _ hlen
  refine ⟨by rw [h1], by rw [h1]; exact h2, ?_⟩
  simp only [simulate, hunst, hdraw, h1, h2]
  simp

/-- Witness for C8: drawing the ruleless pair `("A", "B")` of `A+A->B+B`
from configuration `[2, 1]`. -/
theorem C8_missing_pair_zero_delta_witness :
    lookupA [['A'], ['B']] netAA.reactions = none ∧
    isStable netAA.minimal [2, 1] = false ∧
    validDraw netAA.species [2, 1] ['A'] ['B'] = true ∧
    ((lookupIns netAA.reactions [['A'], ['B']] netAA.species.length).1 =
      zeroVec netAA.species.length ∧
     vadd [2, 1] (lookupIns netAA.reactions [['A'], ['B']] netAA.species.length).1 =
      [2, 1] ∧
     simulate netAA.species netAA.minimal netAA.reactions [2, 1] 5
        [(['A'], ['B'])] =
      simulate netAA.species netAA.minimal
        (netAA.reactions ++ [([['A'], ['B']], zeroVec netAA.species.length)])
        [2, 1] (5 + 1) []) :=
  ⟨by rfl, by rfl, by rfl,
    C8_missing_pair_zero_delta netAA.species netAA.minimal netAA.reactions
      [2, 1] 5 ['A'] ['B'] [] (by rfl) (by rfl) (by rfl) (by rfl)⟩

/-- C9: a configuration on which `is_stable` is already true makes
`run_simulation` execute exactly 0 interactions and return 0. -/
theorem C9_stable_initial_zero
    (s : String) (net : Network) (initial : List Int) (draws : List (Ident × Ident))
    (hnet : buildNetwork s = Except.ok net)
    (hlen : initial.length ≤ net.species.length)
    (hstable : isStable net.minimal (padConfig net.species.length initial) = true) :
    simulate net.species net.minimal net.reactions
        (padConfig net.species.length initial) 0 draws =
      some (0, padConfig net.species.length initial, net.reactions) ∧
    runSimulation net initial draws = some 0 := by
  have hsim := @simulate_stable net.species net.minimal net.reactions
    (padConfig net.species.length initial) 0 draws hstable
  refine ⟨hsim, ?_⟩
  unfold runSimulation
  rw [if_neg (not_lt.mpr hlen), hsim]
  simp

/-- Witness for C9: `A+A->B+B` started from the stable `[1, 0]`. -/
theorem C9_stable_initial_zero_witness :
    buildNetwork "A+A->B+B" = Except.ok netAA ∧
    ([1, 0] : List Int).length ≤ netAA.species.length ∧
    isStable netAA.minimal (padConfig netAA.species.length [1, 0]) = true ∧
    (simulate netAA.species netAA.minimal netAA.reactions
        (padConfig netAA.species.length [1, 0]) 0 [(['A'], ['A'])] =
      some (0, padConfig netAA.species.length [1, 0], netAA.reactions) ∧
     runSimulation netAA [1, 0] [(['A'], ['A'])] = some 0) :=
  ⟨by rfl, by decide, by rfl,
    C9_stable_initial_zero "A+A->B+B" netAA [1, 0] [(['A'], ['A'])]
      (by rfl) (by decide) (by rfl)⟩

/-- C7: whenever `run_simulation` terminates it returns
(interactions) / max(1, sum of initial counts); in particular, when
the initial counts sum to zero the population is empty, which is
stable, so 0 interactions occur and the result is 0. -/
theorem C7_normalization
    (s : String) (net : Network) (initial : List Int)
    (draws : List (Ident × Ident)) (q : ℚ)
    (hnet : buildNetwork s = Except.ok net)
    (hlen : initial.length ≤ net.species.length)
    (hpos : ∀ x ∈ initial, 0 ≤ x)
    (hrun : runSimulation net initial draws = some q) :
    (∃ r, simulate net.species net.minimal net.reactions
        (padConfig net.species.length initial) 0 draws = some r ∧
        q = (r.1 : ℚ) / ((max 1 (sumList initial) : Int) : ℚ)) ∧
    (sumList initial = 0 →
      simulate net.species net.minimal net.reactions
          (padConfig net.species.length initial) 0 draws =
        some (0, padConfig net.species.length initial, net.reactions) ∧ q = 0) := by
  unfold runSimulation at hrun
  rw [if_neg (not_lt.mpr hlen)] at hrun
  rcases hsim : simulate net.species net.minimal net.reactions
      (padConfig net.species.length initial) 0 draws with _ | r
  · rw [hsim] at hrun
    exact absurd hrun (by simp)
  · rw [hsim] at hrun
    simp only [Option.some.injEq] at hrun
    have hden : (if sumList initial = 0 then 1 else sumList initial : Int) =
        max 1 (sumList initial) := by
      have hnn : 0 ≤ sumList initial := sumList_nonneg hpos
      by_cases h0 : sumList initial = 0
      · rw [if_pos h0, h0]
        exact (max_eq_left (by omega)).symm
      · rw [if_neg h0]
        exact (max_eq_right (by omega)).symm
    constructor
    · exact ⟨r, rfl, by rw [← hrun, hden]⟩
    · intro h0
      have hz := sumList_zero_all_zero hpos h0
      have hzp : ∀ x ∈ padConfig net.species.length initial, x = 0 := by
        intro x hx
        rcases List.mem_append.mp (by simpa [padConfig] using hx) with h | h
        · exact hz x h
        · exact List.eq_of_mem_replicate (by simpa [zeroVec] using h)
      have hst := isStable_zero_config hnet (padConfig_length hlen) hzp
      have hs2 := @simulate_stable net.species net.minimal net.reactions
        (padConfig net.species.length initial) 0 draws hst
      refine ⟨hsim.symm.trans hs2, ?_⟩
      have hr : r = (0, padConfig net.species.length initial, net.reactions) :=
        Option.some.inj (hsim.symm.trans hs2)
      rw [← hrun, hr]
      simp

/-- Witness for C7: `A+A->B+B` from the empty population `[0, 0]`. -/
theorem C7_normalization_witness :
    buildNetwork "A+A->B+B" = Except.ok netAA ∧
    ([0, 0] : List Int).length ≤ netAA.species.length ∧
    (∀ x ∈ ([0, 0] : List Int), 0 ≤ x) ∧
    runSimulation netAA [0, 0] [] = some 0 ∧
    ((∃ r, simulate netAA.species netAA.minimal netAA.reactions
        (padConfig netAA.species.length [0, 0]) 0 [] = some r ∧
        (0 : ℚ) = (r.1 : ℚ) / ((max 1 (sumList [0, 0]) : Int) : ℚ)) ∧
     (sumList [0, 0] = 0 →
      simulate netAA.species netAA.minimal netAA.reactions
          (padConfig netAA.species.length [0, 0]) 0 [] =
        some (0, padConfig netAA.species.length [0, 0], netAA.reactions) ∧
      (0 : ℚ) = 0)) :=
  ⟨by rfl, by decide, by decide,
    by simp [runSimulation, simulate, netAA, padConfig, zeroVec, isStable, sumList],
    C7_normalization "A+A->B+B" netAA [0, 0] [] 0 (by rfl) (by decide) (by decide)
      (by simp [runSimulation, simulate, netAA, padConfig, zeroVec, isStable, sumList])⟩

/-- C10: for a built network whose rule lines each have exactly two
reactants, every configuration of the network's dimension on which
`is_stable` returns false has total population at least 2, and an
ordered draw of two distinct individuals is possible, so the sampling
step of the loop cannot fail for lack of population. -/
theorem C10_unstable_population
    (s : String) (net : Network) (config : List Int)
    (hnet : buildNetwork s = Except.ok net)
    (h2 : ∀ line ∈ splitlines (stripL s.data),
      (splitPlus ((splitArrow line).headD [])).length = 2)
    (hc : config.length = net.species.length)
    (hunst : isStable net.minimal config = false) :
    2 ≤ sumList config ∧ ∃ a b, validDraw net.species config a b = true := by
  have hkeys : ∀ kv ∈ net.reactions, kv.1.length = 2 := by
    rcases buildNetwork_ok hnet with ⟨hs, hvf, rules, hrules, hre, hmin⟩
    intro kv hkv
    rw [hre] at hkv
    rcases parseLines_mem hrules kv (mem_buildReactions hkv) with ⟨line, hline, hpl⟩
    rcases kv with ⟨ks, d⟩
    rcases parseLine_ok hpl with ⟨g1, g2, harr, hks, _⟩
    have hline2 := h2 line hline
    rw [harr] at hline2
    simp only [List.headD_cons] at hline2
    rw [hks, List.length_map]
    exact hline2
  have hnd := buildNetwork_species_nodup hnet
  have hreqlen : ∀ req ∈ net.minimal, req.length = config.length := fun req hr =>
    (buildNetwork_minimal_mem hnet req hr).1.trans hc.symm
  rw [isStable_false_iff hreqlen] at hunst
  rcases hunst with ⟨req, hreq, hall⟩
  rcases (buildNetwork_minimal_mem hnet req hreq).2 with ⟨kv, hkv, he⟩
  rcases buildNetwork_reactions_spec hnet kv hkv with ⟨hne, hmem, _⟩
  obtain ⟨x, y, hxy⟩ := List.length_eq_two.mp (hkeys kv hkv)
  have hxsp : x ∈ net.species := hmem x (by rw [hxy]; simp)
  have hysp : y ∈ net.species := hmem y (by rw [hxy]; simp)
  have hsum2 : sumList req = 2 := by
    rw [he, sumList_countVec hnd hmem, hkeys kv hkv]
    rfl
  have hsumc : 2 ≤ sumList config := by
    have hmono := sumList_le_of_pointwise (hreqlen req hreq)
      (fun i hi => hall i (by rw [← hreqlen req hreq]; exact hi))
    omega
  refine ⟨hsumc, ?_⟩
  by_cases hxyeq : x = y
  · subst hxyeq
    refine ⟨x, x, ?_⟩
    have hcount : req.getD (idxOf net.species x) 0 = 2 := by
      rw [he, countVec_getD _ _ _ (idxOf_lt hxsp), getD_idxOf hxsp, hxy]
      simp [List.count_cons]
    have h2c : 2 ≤ config.getD (idxOf net.species x) 0 := by
      have := hall (idxOf net.species x) (by rw [hc]; exact idxOf_lt hxsp)
      omega
    rw [List.getD_eq_getElem?_getD] at h2c
    simp [validDraw, hxsp, h2c]
  · refine ⟨x, y, ?_⟩
    have hcx : req.getD (idxOf net.species x) 0 = 1 := by
      rw [he, countVec_getD _ _ _ (idxOf_lt hxsp), getD_idxOf hxsp, hxy]
      simp [List.count_cons, hxyeq]
    have hcy : req.getD (idxOf net.species y) 0 = 1 := by
      rw [he, countVec_getD _ _ _ (idxOf_lt hysp), getD_idxOf hysp, hxy]
      simp [List.count_cons, Ne.symm hxyeq]
    have h1x : 1 ≤ config.getD (idxOf net.species x) 0 := by
      have := hall (idxOf net.species x) (by rw [hc]; exact idxOf_lt hxsp)
      omega
    have h1y : 1 ≤ config.getD (idxOf net.species y) 0 := by
      have := hall (idxOf net.species y) (by rw [hc]; exact idxOf_lt hysp)
      omega
    rw [List.getD_eq_getElem?_getD] at h1x h1y
    simp [validDraw, hxsp, hysp, hxyeq, h1x, h1y]

/-- Witness for C10: `A+A->B+B` at the unstable configuration `[2, 0]`. -/
theorem C10_unstable_population_witness :
    buildNetwork "A+A->B+B" = Except.ok netAA ∧
    (∀ line ∈ splitlines (stripL ("A+A->B+B" : String).data),
      (splitPlus ((splitArrow line).headD [])).length = 2) ∧
    ([2, 0] : List Int).length = netAA.species.length ∧
    isStable netAA.minimal [2, 0] = false ∧
    (2 ≤ sumList [2, 0] ∧ ∃ a b, validDraw netAA.species [2, 0] a b = true) :=
  ⟨by rfl, by decide, by rfl, by rfl,
    C10_unstable_population "A+A->B+B" netAA [2, 0] (by rfl) (by decide)
      (by rfl) (by rfl)⟩

/-! ### The non-negativity invariant (C2) -/

theorem lookupIns_eq_of_none {m : List (List Ident × List Int)} {k : List Ident}
    {n : Nat} (h : lookupA k m = none) :
    lookupIns m k n = (zeroVec n, m ++ [(k, zeroVec n)]) := by
  unfold lookupIns
  rw [h]

theorem lookupIns_eq_of_some {m : List (List Ident × List Int)} {k : List Ident}
    {n : Nat} {v : List Int} (h : lookupA k m = some v) :
    lookupIns m k n = (v, m) := by
  unfold lookupIns
  rw [h]

theorem lookupA_append_left {k : List Ident} {v : List Int}
    {m l2 : List (List Ident × List Int)} (h : lookupA k m = some v) :
    lookupA k (m ++ l2) = some v := by
  induction m with
  | nil => simp [lookupA] at h
  | cons kv rest ih =>
    rcases kv with ⟨k0, v0⟩
    by_cases hk : k0 = k
    · simp_all [lookupA]
    · simp only [lookupA, if_neg hk] at h
      simpa [lookupA, hk] using ih h

theorem buildNetwork_deltaBound {s : String} {net : Network}
    (h : buildNetwork s = .ok net) : DeltaBound net.species net.reactions := by
  intro kv hkv
  rcases buildNetwork_reactions_spec h kv hkv with ⟨hne, hmem, hlen, res, hresmem, hd⟩
  refine ⟨hlen, fun i => ?_⟩
  by_cases hi : i < net.species.length
  · rw [hd, vsub_getD _ _ _ (by simpa using hi) (by simp)]
    have h1 := countVec_nonneg net.species res i
    omega
  · have h1 : (countVec net.species kv.1).getD i 0 = 0 :=
      List.getD_eq_default _ _ (by simpa using Nat.le_of_not_lt hi)
    have h2 : kv.2.getD i 0 = 0 :=
      List.getD_eq_default _ _ (by rw [hlen]; exact Nat.le_of_not_lt hi)
    omega

theorem deltaBound_lookupIns {sp : List Ident} {m : List (List Ident × List Int)}
    (k : List Ident) (h : DeltaBound sp m) :
    DeltaBound sp (lookupIns m k sp.length).2 := by
  rcases hl : lookupA k m with _ | v
  · rw [lookupIns_eq_of_none hl]
    intro kv hkv
    rcases List.mem_append.mp hkv with h2 | h2
    · exact h kv h2
    · simp only [List.mem_singleton] at h2
      subst h2
      refine ⟨by simp, fun i => ?_⟩
      have h3 := countVec_nonneg sp k i
      simp only [zeroVec_getD]
      omega
  · rw [lookupIns_eq_of_some hl]
    exact h

theorem getD_nonneg_of_all {c : List Int} (h : ∀ x ∈ c, 0 ≤ x) (i : Nat) :
    0 ≤ c.getD i 0 := by
  by_cases hi : i < c.length
  · rw [List.getD_eq_getElem _ _ hi]
    exact h _ (List.getElem_mem hi)
  · rw [List.getD_eq_default _ _ (Nat.le_of_not_lt hi)]

theorem allNonneg_iff {c : List Int} : allNonneg c = true ↔ ∀ x ∈ c, 0 ≤ x := by
  simp [allNonneg]

/-- One loop step keeps the configuration non-negative: the delta
looked up under the drawn pair `[a, b]` subtracts at most the reactant
multiset `{a, b}`, which the draw just certified present. -/
theorem step_preserves_nonneg
    {sp : List Ident} {m : List (List Ident × List Int)} {config : List Int}
    {a b : Ident}
    (hnd : sp.Nodup) (hdb : DeltaBound sp m)
    (hlen : config.length = sp.length) (hpos : ∀ x ∈ config, 0 ≤ x)
    (hdraw : validDraw sp config a b = true) :
    (vadd config (lookupIns m [a, b] sp.length).1).length = sp.length ∧
    ∀ x ∈ vadd config (lookupIns m [a, b] sp.length).1, 0 ≤ x := by
  have hdlen : (lookupIns m [a, b] sp.length).1.length = sp.length := by
    rcases hl : lookupA [a, b] m with _ | v
    · rw [lookupIns_eq_of_none hl]; simp
    · rw [lookupIns_eq_of_some hl]
      exact (hdb _ (lookupA_mem hl)).1
  have hdbound : ∀ i, -((countVec sp [a, b]).getD i 0) ≤
      (lookupIns m [a, b] sp.length).1.getD i 0 := by
    rcases hl : lookupA [a, b] m with _ | v
    · rw [lookupIns_eq_of_none hl]
      intro i
      have := countVec_nonneg sp [a, b] i
      simp only [zeroVec_getD]
      omega
    · rw [lookupIns_eq_of_some hl]
      exact (hdb _ (lookupA_mem hl)).2
  simp only [validDraw, Bool.and_eq_true, decide_eq_true_eq] at hdraw
  rcases hdraw with ⟨⟨hasp, hbsp⟩, hcond⟩
  have hvlen : (vadd config (lookupIns m [a, b] sp.length).1).length = sp.length := by
    rw [vadd_length, hlen, hdlen, Nat.min_self]
  refine ⟨hvlen, ?_⟩
  have hpoint : ∀ i < sp.length,
      0 ≤ (vadd config (lookupIns m [a, b] sp.length).1).getD i 0 := by
    intro i hi
    rw [vadd_getD _ _ _ (by rw [hlen]; exact hi) (by rw [hlen, hdlen])]
    have hb1 := hdbound i
    have hcv : (countVec sp [a, b]).getD i 0 = ([a, b].count (sp.getD i []) : Int) :=
      countVec_getD _ _ _ hi
    have hnn := getD_nonneg_of_all hpos i
    by_cases hta : sp.getD i [] = a
    · have hia : idxOf sp a = i := by rw [← hta, idxOf_getD hnd hi]
      by_cases hab : a = b
      · rw [if_pos hab, hia] at hcond
        replace hcond := of_decide_eq_true hcond
        have hcnt : [a, b].count (sp.getD i []) = 2 := by
          rw [hta, ← hab]
          simp [List.count_cons]
        rw [hcnt] at hcv
        omega
      · rw [if_neg hab] at hcond
        simp only [Bool.and_eq_true, decide_eq_true_eq] at hcond
        rcases hcond with ⟨hca, hcb⟩
        rw [hia] at hca
        have hcnt : [a, b].count (sp.getD i []) = 1 := by
          rw [hta]
          simp [List.count_cons, hab]
        rw [hcnt] at hcv
        omega
    · by_cases htb : sp.getD i [] = b
      · have hab : ¬a = b := fun he => hta (he ▸ htb)
        rw [if_neg hab] at hcond
        simp only [Bool.and_eq_true, decide_eq_true_eq] at hcond
        rcases hcond with ⟨hca, hcb⟩
        have hib : idxOf sp b = i := by rw [← htb, idxOf_getD hnd hi]
        rw [hib] at hcb
        have hba : ¬b = a := fun he => hta (he ▸ htb)
        have hcnt : [a, b].count (sp.getD i []) = 1 := by
          rw [htb]
          simp [List.count_cons, hba]
        rw [hcnt] at hcv
        omega
      · have hcnt : [a, b].count (sp.getD i []) = 0 := by
          rw [List.count_eq_zero]
          intro hmem
          simp only [List.mem_cons, List.not_mem_nil, or_false] at hmem
          rcases hmem with h | h
          · exact hta h
          · exact htb h
        rw [hcnt] at hcv
        omega
  intro x hx
  rcases List.mem_iff_getElem.mp hx with ⟨i, hilt, hieq⟩
  have hi2 : i < sp.length := by rw [← hvlen]; exact hilt
  have := hpoint i hi2
  rw [List.getD_eq_getElem _ _ hilt] at this
  rw [← hieq]
  exact this

/-- Along any reachable loop state, the mapping keeps `DeltaBound` and
the configuration keeps its dimension and non-negativity. -/
theorem reach_invariant
    {sp : List Ident} {minimal : List (List Int)}
    {m0 : List (List Ident × List Int)} {c0 : List Int}
    (hnd : sp.Nodup) (hdb : DeltaBound sp m0)
    (hlen : c0.length = sp.length) (hpos : ∀ x ∈ c0, 0 ≤ x) :
    ∀ mc, Reach sp minimal (m0, c0) mc →
      DeltaBound sp mc.1 ∧ mc.2.length = sp.length ∧ ∀ x ∈ mc.2, 0 ≤ x := by
  intro mc hr
  induction hr with
  | refl => exact ⟨hdb, hlen, hpos⟩
  | @step m config a b hr hst hdraw ih =>
    rcases ih with ⟨ihdb, ihlen, ihpos⟩
    have hstep := step_preserves_nonneg hnd ihdb ihlen ihpos hdraw
    exact ⟨deltaBound_lookupIns [a, b] ihdb, hstep.1, hstep.2⟩

/-- C2: for a network built from rule lines with exactly two reactants
each, and a non-negative initial configuration, every configuration
reached by the `run_simulation` loop (after each componentwise delta
application) still has all entries ≥ 0. -/
theorem C2_reachable_configs_nonneg
    (s : String) (net : Network) (initial : List Int)
    (hnet : buildNetwork s = Except.ok net)
    (h2 : ∀ line ∈ splitlines (stripL s.data),
      (splitPlus ((splitArrow line).headD [])).length = 2)
    (hlen : initial.length ≤ net.species.length)
    (hpos : ∀ x ∈ initial, 0 ≤ x) :
    ∀ mc, Reach net.species net.minimal
        (net.reactions, padConfig net.species.length initial) mc →
      allNonneg mc.2 = true := by
  intro mc hr
  rw [allNonneg_iff]
  have hpadpos : ∀ x ∈ padConfig net.species.length initial, 0 ≤ x := by
    intro x hx
    rcases List.mem_append.mp (by simpa [padConfig] using hx) with h | h
    · exact hpos x h
    · have hx0 : x = 0 := List.eq_of_mem_replicate (by simpa [zeroVec] using h)
      omega
  exact (reach_invariant (buildNetwork_species_nodup hnet)
    (buildNetwork_deltaBound hnet) (padConfig_length hlen) hpadpos mc hr).2.2

/-- Witness for C2: one loop step of `A+A->B+B` from `[2, 0]`. -/
theorem C2_reachable_configs_nonneg_witness :
    buildNetwork "A+A->B+B" = Except.ok netAA ∧
    (∀ line ∈ splitlines (stripL ("A+A->B+B" : String).data),
      (splitPlus ((splitArrow line).headD [])).length = 2) ∧
    ([2, 0] : List Int).length ≤ netAA.species.length ∧
    (∀ x ∈ ([2, 0] : List Int), 0 ≤ x) ∧
    allNonneg ((lookupIns netAA.reactions [[ 'A' ], [ 'A' ]] netAA.species.length).2,
      vadd (padConfig netAA.species.length [2, 0])
        (lookupIns netAA.reactions [[ 'A' ], [ 'A' ]] netAA.species.length).1).2 = true :=
  ⟨by rfl, by decide, by decide, by decide,
    C2_reachable_configs_nonneg "A+A->B+B" netAA [2, 0] (by rfl) (by decide)
      (by decide) (by decide) _
      (Reach.step
        (Reach.refl (netAA.reactions, padConfig netAA.species.length [2, 0]))
        (by rfl) (by rfl))⟩

/-! ### Mutation of the reactions mapping during a run (C3) -/

/-- C3 counterexample: running the loop of `run_simulation` on
`A+A->B+B` from `[2, 1]`, drawing the ruleless pair `("A","B")` and
then `("A","A")`, terminates — but the final reactions mapping differs
from the network's original one: the `defaultdict` lookup inserted the
key `("A","B")` with a zero delta, so the network is not left
unchanged. -/
theorem C3_run_mutates_reactions :
    buildNetwork "A+A->B+B" = Except.ok netAA ∧
    simulate netAA.species netAA.minimal netAA.reactions [2, 1] 0
        [([ 'A' ], [ 'B' ]), ([ 'A' ], [ 'A' ])] =
      some (2, [0, 3], [([[ 'A' ], [ 'A' ]], [-2, 2]), ([[ 'A' ], [ 'B' ]], [0, 0])]) ∧
    [([[ 'A' ], [ 'A' ]], [-2, 2]), ([[ 'A' ], [ 'B' ]], [0, 0])] ≠ netAA.reactions :=
  ⟨by rfl, by rfl, by decide⟩

/-- C3 (amended): a terminating run leaves the species order and the
minimal-requirement list untouched (the loop only reads them), never
changes the delta stored under any existing ordered pair, and the only
entries it can add to the reactions mapping are zero-delta entries for
drawn pairs that had no rule. -/
theorem C3_simulate_preserves_existing
    (species : List Ident) (minimal : List (List Int))
    (m : List (List Ident × List Int)) (config : List Int) (n : Nat)
    (draws : List (Ident × Ident)) (r : Nat × List Int × List (List Ident × List Int))
    (hrun : simulate species minimal m config n draws = some r) :
    (∀ k v, lookupA k m = some v → lookupA k r.2.2 = some v) ∧
    (∀ kv ∈ r.2.2, kv ∈ m ∨ kv.2 = zeroVec species.length) := by
  induction draws generalizing m config n with
  | nil =>
    unfold simulate at hrun
    split at hrun
    · simp only [Option.some.injEq] at hrun
      subst hrun
      exact ⟨fun k v h => h, fun kv hkv => Or.inl hkv⟩
    · exact absurd hrun (by simp)
  | cons d rest ih =>
    rcases d with ⟨a, b⟩
    unfold simulate at hrun
    split at hrun
    · simp only [Option.some.injEq] at hrun
      subst hrun
      exact ⟨fun k v h => h, fun kv hkv => Or.inl hkv⟩
    · split at hrun
      · rcases hl : lookupA [a, b] m with _ | v
        · rw [lookupIns_eq_of_none hl] at hrun
          rcases ih _ _ _ hrun with ⟨h1, h2⟩
          constructor
          · intro k v hkv
            exact h1 k v (lookupA_append_left hkv)
          · intro kv hkv
            rcases h2 kv hkv with h3 | h3
            · rcases List.mem_append.mp h3 with h4 | h4
              · exact Or.inl h4
              · simp only [List.mem_singleton] at h4
                subst h4
                exact Or.inr rfl
            · exact Or.inr h3
        · rw [lookupIns_eq_of_some hl] at hrun
          exact ih _ _ _ hrun
      · exact absurd hrun (by simp)

/-- Witness for C3's amended theorem: the same two-step run. -/
theorem C3_simulate_preserves_existing_witness :
    simulate netAA.species netAA.minimal netAA.reactions [2, 1] 0
        [([ 'A' ], [ 'B' ]), ([ 'A' ], [ 'A' ])] =
      some (2, [0, 3], [([[ 'A' ], [ 'A' ]], [-2, 2]), ([[ 'A' ], [ 'B' ]], [0, 0])]) ∧
    ((∀ k v, lookupA k netAA.reactions = some v →
        lookupA k [([[ 'A' ], [ 'A' ]], [-2, 2]), ([[ 'A' ], [ 'B' ]], [0, 0])] = some v) ∧
     (∀ kv ∈ [([[ 'A' ], [ 'A' ]], [-2, 2]), ([[ 'A' ], [ 'B' ]], [0, 0])],
        kv ∈ netAA.reactions ∨ kv.2 = zeroVec netAA.species.length)) :=
  ⟨by rfl,
    C3_simulate_preserves_existing netAA.species netAA.minimal netAA.reactions
      [2, 1] 0 [([ 'A' ], [ 'B' ]), ([ 'A' ], [ 'A' ])]
      (2, [0, 3], [([[ 'A' ], [ 'A' ]], [-2, 2]), ([[ 'A' ], [ 'B' ]], [0, 0])])
      (by rfl)⟩

/-! ### Duplicate rules (C4) and malformed lines (C5) -/

/-- C4 counterexample: building from a text whose two lines define the
same ordered reactant pair `("A","B")` does not raise any
`DuplicateRuleError` — construction succeeds, and the mapping holds a
single entry carrying the second line's delta. -/
theorem C4_duplicate_rule_accepted :
    buildNetwork "A+B->A+U\nA+B->B+U" = Except.ok netDup := by rfl

/-- C4 (amended): duplicated ordered reactant pairs are kept silently,
last definition wins: in any successful build, looking up a key in the
reactions mapping yields the delta of the last parsed rule with that
key (dict assignment overwrites in place), and no error is raised. -/
theorem C4_duplicate_last_wins
    (s : String) (net : Network) (rules : List (List Ident × List Int))
    (hnet : buildNetwork s = Except.ok net)
    (hp : parseLines net.species (splitlines (stripL s.data)) = Except.ok rules)
    (k : List Ident) :
    lookupA k net.reactions =
      (rules.reverse.find? fun kv => decide (kv.1 = k)).map fun kv => kv.2 := by
  rcases buildNetwork_ok hnet with ⟨hs, hvf, rules2, hp2, hre, hmin⟩
  have hrr : rules2 = rules := Except.ok.inj (hp2.symm.trans hp)
  subst hrr
  rw [hre]
  unfold buildReactions
  rw [lookupA_foldl_updateAssoc]
  rcases hf : rules2.reverse.find? (fun kv => decide (kv.1 = k)) with _ | kv <;>
    simp [hf, lookupA]

/-- Witness for C4's amended theorem, at the duplicated text itself. -/
theorem C4_duplicate_last_wins_witness :
    buildNetwork "A+B->A+U\nA+B->B+U" = Except.ok netDup ∧
    parseLines netDup.species
        (splitlines (stripL ("A+B->A+U\nA+B->B+U" : String).data)) =
      Except.ok rulesDup ∧
    lookupA [[ 'A' ], [ 'B' ]] netDup.reactions =
      (rulesDup.reverse.find? fun kv => decide (kv.1 = [[ 'A' ], [ 'B' ]])).map
        (fun kv => kv.2) :=
  ⟨by rfl, by rfl,
    C4_duplicate_last_wins "A+B->A+U\nA+B->B+U" netDup rulesDup (by rfl) (by rfl)
      [[ 'A' ], [ 'B' ]]⟩

/-- C5 counterexample: a line whose reactant side has three
identifiers (`A+B+C->A+B`) is accepted without any error — the rule is
stored under the 3-tuple key; no `MalformedRuleError` exists in the
source, and nothing is raised at construction time. -/
theorem C5_three_reactants_accepted :
    buildNetwork "A+B+C->A+B" =
      Except.ok { species := [[ 'A' ], [ 'B' ], [ 'C' ]],
                  reactions := [([[ 'A' ], [ 'B' ], [ 'C' ]], [0, 0, -1])],
                  minimal := [[1, 1, 1]] } := by rfl

theorem parseLines_error_of_bad_line {sp : List Ident} {lines : List (List Char)}
    (hbad : ∃ line ∈ lines, (splitArrow line).length ≠ 2) :
    ∃ e, parseLines sp lines = .error e := by
  induction lines with
  | nil => simp at hbad
  | cons l ls ih =>
    rcases hbad with ⟨line, hline, hb⟩
    rcases List.mem_cons.mp hline with h | h
    · subst h
      have hpe : parseLine sp line = .error (.unpackMismatch line) := by
        unfold parseLine
        rcases hsa : splitArrow line with _ | ⟨g1, _ | ⟨g2, _ | ⟨g3, gs⟩⟩⟩
        · rfl
        · rfl
        · exact absurd (by rw [hsa]; rfl) hb
        · rfl
      exact ⟨.unpackMismatch line, by unfold parseLines; rw [hpe]⟩
    · rcases hpl : parseLine sp l with e | r
      · exact ⟨e, by unfold parseLines; rw [hpl]⟩
      · rcases ih ⟨line, h, hb⟩ with ⟨e, he⟩
        exact ⟨e, by unfold parseLines; rw [hpl, he]⟩

/-- C5 (amended): a line with zero or more than one `->` does abort
construction — but with the built-in unpacking `ValueError`, not a
`MalformedRuleError` (the species field-name check runs first, hence
the hypothesis); and a reactant side that does not have exactly two
identifiers raises nothing at all. -/
theorem C5_malformed_arrow_errors
    (s : String)
    (hfields : ∀ sp ∈ sortDedup (findTokens s.data), validField sp = true)
    (hbad : ∃ line ∈ splitlines (stripL s.data), (splitArrow line).length ≠ 2) :
    ∃ e, buildNetwork s = Except.error e := by
  unfold buildNetwork
  have hfind : (sortDedup (findTokens s.data)).find? (fun sp => !(validField sp)) =
      none := by
    rw [List.find?_eq_none]
    intro x hx
    simp [hfields x hx]
  rw [hfind]
  rcases @parseLines_error_of_bad_line (sortDedup (findTokens s.data))
    (splitlines (stripL s.data)) hbad with ⟨e, he⟩
  exact ⟨e, by rw [he]⟩

/-- Witness for C5's amended theorem: the first line of
`"A + B\nA+B->A+A"` has no `->`, so the build fails. -/
theorem C5_malformed_arrow_errors_witness :
    (∀ sp ∈ sortDedup (findTokens ("A + B\nA+B->A+A" : String).data),
      validField sp = true) ∧
    (∃ line ∈ splitlines (stripL ("A + B\nA+B->A+A" : String).data),
      (splitArrow line).length ≠ 2) ∧
    ∃ e, buildNetwork "A + B\nA+B->A+A" = Except.error e :=
  ⟨by decide, by decide,
    C5_malformed_arrow_errors "A + B\nA+B->A+A" (by decide) (by decide)⟩

/-! ### The tokenizer agreement (C6) -/

/-- Recursion principle matching the two-character lookahead of the
splitting functions. -/
theorem twoStep_induction (P : List Char → Prop) (h0 : P []) (h1 : ∀ c, P [c])
    (h2 : ∀ c1 c2 cs, P cs → P (c2 :: cs) → P (c1 :: c2 :: cs)) : ∀ l, P l
  | [] => h0
  | [c] => h1 c
  | c1 :: c2 :: cs =>
    h2 c1 c2 cs (twoStep_induction P h0 h1 h2 cs)
      (twoStep_induction P h0 h1 h2 (c2 :: cs))

theorem ArrowTame.append {a b : List Char} (ha : ArrowTame a) (hb : ArrowTame b) :
    ArrowTame (a ++ b) := by
  induction ha with
  | nil => exact hb
  | cons h1 h2 _ ih => exact ArrowTame.cons h1 h2 ih
  | arrow _ ih => exact ArrowTame.arrow ih

theorem arrowTame_of_no_arrow_chars {l : List Char}
    (h : ∀ c ∈ l, c ≠ '-' ∧ c ≠ '>') : ArrowTame l := by
  induction l with
  | nil => exact ArrowTame.nil
  | cons c cs ih =>
    rcases h c (by simp) with ⟨h1, h2⟩
    exact ArrowTame.cons h1 h2 (ih fun c2 hc => h c2 (List.mem_cons_of_mem _ hc))

theorem pyWS_not_arrow {c : Char} (h : pyWS c = true) : c ≠ '-' ∧ c ≠ '>' := by
  constructor
  · rintro rfl
    exact absurd h (by decide)
  · rintro rfl
    exact absurd h (by decide)

theorem isLineBreak_not_arrow {c : Char} (h : isLineBreak c = true) :
    c ≠ '-' ∧ c ≠ '>' := by
  constructor
  · rintro rfl
    exact absurd h (by decide)
  · rintro rfl
    exact absurd h (by decide)

theorem validField_chars {s : Ident} (h : validField s = true) :
    ∀ c ∈ s, c ≠ '-' ∧ c ≠ '>' := by
  rcases s with _ | ⟨c0, cs⟩
  · simp
  · simp only [validField, Bool.and_eq_true] at h
    rcases h with ⟨⟨h0, hcs⟩, hkw⟩
    intro c hc
    rcases List.mem_cons.mp hc with h | h
    · subst h
      constructor
      · rintro rfl
        exact absurd h0 (by decide)
      · rintro rfl
        exact absurd h0 (by decide)
    · have h2 := List.all_eq_true.mp hcs c h
      constructor
      · rintro rfl
        exact absurd h2 (by decide)
      · rintro rfl
        exact absurd h2 (by decide)

theorem splitPlusAux_head (l : List Char) :
    ∀ acc, ∃ p ps, splitPlusAux l acc = p :: ps ∧ ∀ c ∈ acc, c ∈ p := by
  induction l with
  | nil =>
    intro acc
    exact ⟨acc.reverse, [], rfl, fun c hc => by simpa using hc⟩
  | cons c cs ih =>
    intro acc
    by_cases hc : c = '+'
    · exact ⟨acc.reverse, splitPlusAux cs [], by simp [splitPlusAux, hc],
        fun c2 hc2 => by simpa using hc2⟩
    · rcases ih (c :: acc) with ⟨p, ps, heq, hmem⟩
      exact ⟨p, ps, by simp [splitPlusAux, hc, heq],
        fun c2 hc2 => hmem c2 (List.mem_cons_of_mem _ hc2)⟩

/-- Characters of a half come from its `split("+")` pieces or are `+`. -/
theorem splitPlus_chars {P : Char → Prop} (hplus : P '+') (l : List Char) :
    ∀ acc, (∀ p ∈ splitPlusAux l acc, ∀ c ∈ p, P c) → (∀ c ∈ acc, P c) →
      ∀ c ∈ l, P c := by
  induction l with
  | nil =>
    intro acc _ _ c hc
    simp at hc
  | cons c0 cs ih =>
    intro acc hp hacc c hc
    by_cases hc0 : c0 = '+'
    · have hout : splitPlusAux (c0 :: cs) acc = acc.reverse :: splitPlusAux cs [] := by
        simp [splitPlusAux, hc0]
      rcases List.mem_cons.mp hc with h | h
      · rw [h, hc0]
        exact hplus
      · refine ih [] ?_ (by simp) c h
        intro p hp2
        exact hp p (by rw [hout]; exact List.mem_cons_of_mem _ hp2)
    · have hout : splitPlusAux (c0 :: cs) acc = splitPlusAux cs (c0 :: acc) := by
        simp [splitPlusAux, hc0]
      have hc0P : P c0 := by
        rcases splitPlusAux_head cs (c0 :: acc) with ⟨p, ps, heq, hmem⟩
        refine hp p ?_ c0 (hmem c0 (by simp))
        rw [hout, heq]
        simp
      rcases List.mem_cons.mp hc with h | h
      · rw [h]
        exact hc0P
      · refine ih (c0 :: acc) ?_ ?_ c h
        · intro p hp2
          exact hp p (by rw [hout]; exact hp2)
        · intro c2 hc2
          rcases List.mem_cons.mp hc2 with h2 | h2
          · rw [h2]
            exact hc0P
          · exact hacc c2 h2

theorem splitArrowAux_head (l : List Char) :
    ∀ acc, ∃ p ps, splitArrowAux l acc = p :: ps ∧ ∀ c ∈ acc, c ∈ p := by
  induction l using twoStep_induction with
  | h0 =>
    intro acc
    exact ⟨acc.reverse, [], rfl, fun c hc => by simpa using hc⟩
  | h1 c =>
    intro acc
    refine ⟨(c :: acc).reverse, [], rfl, fun c2 hc2 => ?_⟩
    simp only [List.mem_reverse, List.mem_cons]
    exact Or.inr hc2
  | h2 c1 c2 cs ihcs ihc2 =>
    intro acc
    by_cases harr : c1 = '-' ∧ c2 = '>'
    · exact ⟨acc.reverse, splitArrowAux cs [], by simp [splitArrowAux, harr],
        fun c hc => by simpa using hc⟩
    · rcases ihc2 (c1 :: acc) with ⟨p, ps, heq, hmem⟩
      exact ⟨p, ps, by simp [splitArrowAux, harr, heq],
        fun c hc => hmem c (List.mem_cons_of_mem _ hc)⟩

theorem splitArrowAux_join (l : List Char) :
    ∀ acc, joinArrow (splitArrowAux l acc) = acc.reverse ++ l := by
  induction l using twoStep_induction with
  | h0 =>
    intro acc
    simp [splitArrowAux, joinArrow]
  | h1 c =>
    intro acc
    simp [splitArrowAux, joinArrow]
  | h2 c1 c2 cs ihcs ihc2 =>
    intro acc
    by_cases harr : c1 = '-' ∧ c2 = '>'
    · rcases harr with ⟨ha1, ha2⟩
      subst ha1
      subst ha2
      have hout : splitArrowAux ('-' :: '>' :: cs) acc =
          acc.reverse :: splitArrowAux cs [] := by
        simp [splitArrowAux]
      rcases splitArrowAux_head cs [] with ⟨p, ps, heq, _⟩
      rw [hout, heq, joinArrow, ← heq, ihcs []]
      simp
    · have hout : splitArrowAux (c1 :: c2 :: cs) acc =
          splitArrowAux (c2 :: cs) (c1 :: acc) := by
        simp [splitArrowAux, harr]
      rw [hout, ihc2 (c1 :: acc)]
      simp

/-- If no piece of `split("->")` contains a stray `-` or `>`, the line
consists of tame characters and full arrows. -/
theorem splitArrowAux_tame (l : List Char) :
    ∀ acc, (∀ p ∈ splitArrowAux l acc, ∀ c ∈ p, c ≠ '-' ∧ c ≠ '>') →
      ArrowTame l := by
  induction l using twoStep_induction with
  | h0 =>
    intro acc _
    exact ArrowTame.nil
  | h1 c =>
    intro acc hp
    have hc := hp ((c :: acc).reverse) (by simp [splitArrowAux]) c (by simp)
    exact ArrowTame.cons hc.1 hc.2 ArrowTame.nil
  | h2 c1 c2 cs ihcs ihc2 =>
    intro acc hp
    by_cases harr : c1 = '-' ∧ c2 = '>'
    · rcases harr with ⟨ha1, ha2⟩
      subst ha1
      subst ha2
      have hout : splitArrowAux ('-' :: '>' :: cs) acc =
          acc.reverse :: splitArrowAux cs [] := by
        simp [splitArrowAux]
      refine ArrowTame.arrow (ihcs [] ?_)
      intro p hp2
      exact hp p (by rw [hout]; exact List.mem_cons_of_mem _ hp2)
    · have hout : splitArrowAux (c1 :: c2 :: cs) acc =
          splitArrowAux (c2 :: cs) (c1 :: acc) := by
        simp [splitArrowAux, harr]
      have htame := ihc2 (c1 :: acc) (fun p hp2 => hp p (by rw [hout]; exact hp2))
      have hc1 : c1 ≠ '-' ∧ c1 ≠ '>' := by
        rcases splitArrowAux_head (c2 :: cs) (c1 :: acc) with ⟨p, ps, heq, hmem⟩
        refine hp p ?_ c1 (hmem c1 (by simp))
        rw [hout, heq]
        simp
      exact ArrowTame.cons hc1.1 hc1.2 htame

/-- `strip` decomposes a piece into whitespace, its stripped core, and
whitespace. -/
theorem stripL_decomp (l : List Char) :
    ∃ pre post, l = pre ++ stripL l ++ post ∧
      (∀ c ∈ pre, pyWS c = true) ∧ (∀ c ∈ post, pyWS c = true) := by
  refine ⟨l.takeWhile pyWS, ((l.dropWhile pyWS).reverse.takeWhile pyWS).reverse,
    ?_, ?_, ?_⟩
  · conv_lhs => rw [← List.takeWhile_append_dropWhile (p := pyWS) (l := l)]
    rw [List.append_assoc]
    congr 1
    have h2 : (l.dropWhile pyWS).reverse =
        (l.dropWhile pyWS).reverse.takeWhile pyWS ++
          (l.dropWhile pyWS).reverse.dropWhile pyWS :=
      (List.takeWhile_append_dropWhile ..).symm
    calc l.dropWhile pyWS = (l.dropWhile pyWS).reverse.reverse := by
          rw [List.reverse_reverse]
    _ = ((l.dropWhile pyWS).reverse.takeWhile pyWS ++
          (l.dropWhile pyWS).reverse.dropWhile pyWS).reverse := by rw [← h2]
    _ = ((l.dropWhile pyWS).reverse.dropWhile pyWS).reverse ++
          ((l.dropWhile pyWS).reverse.takeWhile pyWS).reverse := by
          rw [List.reverse_append]
    _ = stripL l ++ ((l.dropWhile pyWS).reverse.takeWhile pyWS).reverse := rfl
  · intro c hc
    exact List.mem_takeWhile_imp hc
  · intro c hc
    rw [List.mem_reverse] at hc
    exact List.mem_takeWhile_imp hc

/-- If every line of `splitlines` is tame then the whole text is tame
(all line boundaries are whitespace characters, not `-` or `>`). -/
theorem splitlinesAux_tame (l : List Char) :
    ∀ acc, (∀ p ∈ splitlinesAux l acc, ArrowTame p) →
      ArrowTame (acc.reverse ++ l) := by
  induction l using twoStep_induction with
  | h0 =>
    intro acc hp
    by_cases ha : acc = []
    · subst ha
      exact ArrowTame.nil
    · have := hp acc.reverse (by simp [splitlinesAux, ha])
      simpa using this
  | h1 c =>
    intro acc hp
    by_cases hbr : isLineBreak c = true
    · have ht := hp acc.reverse (by simp [splitlinesAux, hbr])
      have hc := isLineBreak_not_arrow hbr
      exact ArrowTame.append ht (ArrowTame.cons hc.1 hc.2 ArrowTame.nil)
    · have := hp ((c :: acc).reverse) (by simp [splitlinesAux, hbr])
      simpa [List.reverse_cons] using this
  | h2 c1 c2 cs ihcs ihc2 =>
    intro acc hp
    by_cases hcrlf : c1 = '\r' ∧ c2 = '\n'
    · rcases hcrlf with ⟨ha1, ha2⟩
      subst ha1
      subst ha2
      have hout : splitlinesAux ('\r' :: '\n' :: cs) acc =
          acc.reverse :: splitlinesAux cs [] := by
        simp [splitlinesAux]
      have hacc := hp acc.reverse (by rw [hout]; simp)
      have hrest := ihcs [] (fun p hp2 => hp p (by rw [hout]; exact List.mem_cons_of_mem _ hp2))
      have hrest2 : ArrowTame cs := by simpa using hrest
      exact ArrowTame.append hacc
        (ArrowTame.cons (by decide) (by decide)
          (ArrowTame.cons (by decide) (by decide) hrest2))
    · by_cases hbr : isLineBreak c1 = true
      · have hout : splitlinesAux (c1 :: c2 :: cs) acc =
            acc.reverse :: splitlinesAux (c2 :: cs) [] := by
          simp [splitlinesAux, hcrlf, hbr]
        have hacc := hp acc.reverse (by rw [hout]; simp)
        have hrest := ihc2 []
          (fun p hp2 => hp p (by rw [hout]; exact List.mem_cons_of_mem _ hp2))
        have hrest2 : ArrowTame (c2 :: cs) := by simpa using hrest
        have hc := isLineBreak_not_arrow hbr
        exact ArrowTame.append hacc (ArrowTame.cons hc.1 hc.2 hrest2)
      · have hout : splitlinesAux (c1 :: c2 :: cs) acc =
            splitlinesAux (c2 :: cs) (c1 :: acc) := by
          simp [splitlinesAux, hcrlf, hbr]
        have := ihc2 (c1 :: acc) (fun p hp2 => hp p (by rw [hout]; exact hp2))
        simpa [List.reverse_cons] using this

/-- On arrow-tame character lists the source's regex tokenizer and the
spec's arrow-aware tokenizer produce the same token stream. -/
theorem tokensAux_eq_specTokensAux {l : List Char} (h : ArrowTame l) :
    ∀ acc, tokensAux l acc = specTokensAux l acc := by
  induction h with
  | nil =>
    intro acc
    rfl
  | @cons c l hc1 hc2 hl ih =>
    intro acc
    have hsep : sepC c = (pyWS c || c = '+') := by
      simp [sepC, hc1, hc2]
    cases l with
    | nil =>
      have hstep : tokensAux [c] acc =
          if sepC c = true then
            (if acc = [] then tokensAux [] [] else acc.reverse :: tokensAux [] [])
          else tokensAux [] (c :: acc) := rfl
      have hspec : specTokensAux [c] acc =
          if pyWS c || c = '+' then (if acc = [] then [] else [acc.reverse])
          else [(c :: acc).reverse] := rfl
      rw [hstep, hspec, hsep]
      by_cases hws : (pyWS c || c = '+') = true <;>
        by_cases hacc : acc = [] <;>
          simp [hws, hacc, tokensAux]
    | cons c2 cs =>
      have hcond : ¬(c = '-' ∧ c2 = '>') := fun hh => hc1 hh.1
      have hstep : tokensAux (c :: c2 :: cs) acc =
          if sepC c = true then
            (if acc = [] then tokensAux (c2 :: cs) []
             else acc.reverse :: tokensAux (c2 :: cs) [])
          else tokensAux (c2 :: cs) (c :: acc) := rfl
      have hspec : specTokensAux (c :: c2 :: cs) acc =
          if c = '-' ∧ c2 = '>' then
            (if acc = [] then specTokensAux cs []
             else acc.reverse :: specTokensAux cs [])
          else if pyWS c || c = '+' then
            (if acc = [] then specTokensAux (c2 :: cs) []
             else acc.reverse :: specTokensAux (c2 :: cs) [])
          else specTokensAux (c2 :: cs) (c :: acc) := rfl
      rw [hstep, hspec, hsep, if_neg hcond]
      by_cases hws : (pyWS c || c = '+') = true <;>
        by_cases hacc : acc = [] <;>
          simp [hws, hacc, ih]
  | @arrow l hl ih =>
    intro acc
    have hstep1 : tokensAux ('-' :: '>' :: l) acc =
        if acc = [] then tokensAux ('>' :: l) []
        else acc.reverse :: tokensAux ('>' :: l) [] := rfl
    have hstep2 : tokensAux ('>' :: l) [] = tokensAux l [] := rfl
    have hspec : specTokensAux ('-' :: '>' :: l) acc =
        if acc = [] then specTokensAux l []
        else acc.reverse :: specTokensAux l [] := rfl
    rw [hstep1, hstep2, hspec]
    by_cases hacc : acc = [] <;> simp [hacc, ih]

theorem findTokens_eq_specTokens {l : List Char} (h : ArrowTame l) :
    findTokens l = specTokens l := tokensAux_eq_specTokensAux h []

/-- If every stripped piece of a half is a valid field name, the half
contains no stray `-` or `>`. -/
theorem half_chars {sp : List Ident} {g : List Char}
    (hvf : ∀ x ∈ sp, validField x = true)
    (hmem : ∀ x ∈ (splitPlus g).map stripL, x ∈ sp) :
    ∀ c ∈ g, c ≠ '-' ∧ c ≠ '>' := by
  have hpieces : ∀ p ∈ splitPlusAux g [], ∀ c ∈ p, c ≠ '-' ∧ c ≠ '>' := by
    intro p hp c hc
    have hsp : stripL p ∈ sp := hmem (stripL p) (List.mem_map_of_mem _ hp)
    have hvfp := hvf _ hsp
    rcases stripL_decomp p with ⟨pre, post, hdec, hpre, hpost⟩
    rw [hdec] at hc
    rcases List.mem_append.mp hc with h2 | h2
    · rcases List.mem_append.mp h2 with h3 | h3
      · exact pyWS_not_arrow (hpre c h3)
      · exact validField_chars hvfp c h3
    · exact pyWS_not_arrow (hpost c h2)
  exact splitPlus_chars (by decide) g [] hpieces (by simp)

/-- A line that parses successfully is arrow-tame. -/
theorem parseLine_ok_tame {sp : List Ident} {line : List Char}
    {r : List Ident × List Int}
    (hvf : ∀ x ∈ sp, validField x = true)
    (h : parseLine sp line = .ok r) : ArrowTame line := by
  rcases r with ⟨ks, d⟩
  rcases parseLine_ok h with ⟨g1, g2, harr, hks, hksmem, res, hres, hresmem, hd⟩
  have hchars1 : ∀ c ∈ g1, c ≠ '-' ∧ c ≠ '>' := by
    refine half_chars hvf ?_
    rw [← hks]
    exact hksmem
  have hchars2 : ∀ c ∈ g2, c ≠ '-' ∧ c ≠ '>' := by
    refine half_chars hvf ?_
    rw [← hres]
    exact hresmem
  have hline : line = g1 ++ '-' :: '>' :: g2 := by
    have hj := splitArrowAux_join line []
    rw [show splitArrowAux line [] = [g1, g2] from harr] at hj
    simpa [joinArrow] using hj.symm
  rw [hline]
  exact ArrowTame.append (arrowTame_of_no_arrow_chars hchars1)
    (ArrowTame.arrow (arrowTame_of_no_arrow_chars hchars2))

/-- Every rule text that builds successfully is arrow-tame: each `-`
or `>` in it belongs to a literal `->`. -/
theorem buildNetwork_tame {s : String} {net : Network}
    (h : buildNetwork s = .ok net) : ArrowTame s.data := by
  rcases buildNetwork_ok h with ⟨hs, hvf, rules, hrules, hre, hmin⟩
  have hlines : ∀ line ∈ splitlines (stripL s.data), ArrowTame line := by
    intro line hline
    rcases parseLines_ok_forall hrules line hline with ⟨r, hr⟩
    exact parseLine_ok_tame hvf hr
  have hstrip : ArrowTame (stripL s.data) := by
    have := splitlinesAux_tame (stripL s.data) [] (fun p hp => hlines p hp)
    simpa using this
  rcases stripL_decomp s.data with ⟨pre, post, hdec, hpre, hpost⟩
  rw [hdec]
  exact ArrowTame.append (ArrowTame.append
      (arrowTame_of_no_arrow_chars fun c hc => pyWS_not_arrow (hpre c hc)) hstrip)
    (arrowTame_of_no_arrow_chars fun c hc => pyWS_not_arrow (hpost c hc))

/-- C6: for every rule text accepted by construction, the network's
species list is exactly the lexicographically sorted deduplication of
the tokens described by the spec — splitting on whitespace, `+`, and
the two-character arrow `->`: on buildable texts the regex's
character-class separators (`-` and `>` individually) agree with the
spec's arrow-aware separators.  The species list is strictly sorted
without duplicates, contains exactly the spec's tokens, and its length
indexes every delta vector and minimal-requirement vector. -/
theorem C6_species_spec_tokens
    (s : String) (net : Network) (hnet : buildNetwork s = Except.ok net) :
    net.species = sortDedup (specTokens s.data) ∧
    net.species.Pairwise (fun a b => lexLt a b = true) ∧
    (∀ t, t ∈ net.species ↔ t ∈ specTokens s.data) ∧
    (∀ kv ∈ net.reactions, kv.2.length = net.species.length) ∧
    (∀ req ∈ net.minimal, req.length = net.species.length) := by
  have htame := buildNetwork_tame hnet
  have heq : findTokens s.data = specTokens s.data := findTokens_eq_specTokens htame
  rcases buildNetwork_ok hnet with ⟨hs, hvf, rules, hrules, hre, hmin⟩
  refine ⟨by rw [hs, heq], ?_, ?_, ?_, ?_⟩
  · rw [hs]
    exact sortDedup_pairwise _
  · intro t
    rw [hs, mem_sortDedup, heq]
  · exact fun kv hkv => (buildNetwork_reactions_spec hnet kv hkv).2.2.1
  · exact fun req hreq => (buildNetwork_minimal_mem hnet req hreq).1

/-- Witness for C6 at the network `A+A->B+B`. -/
theorem C6_species_spec_tokens_witness :
    buildNetwork "A+A->B+B" = Except.ok netAA ∧
    (netAA.species = sortDedup (specTokens ("A+A->B+B" : String).data) ∧
     netAA.species.Pairwise (fun a b => lexLt a b = true) ∧
     (∀ t, t ∈ netAA.species ↔ t ∈ specTokens ("A+A->B+B" : String).data) ∧
     (∀ kv ∈ netAA.reactions, kv.2.length = netAA.species.length) ∧
     (∀ req ∈ netAA.minimal, req.length = netAA.species.length)) :=
  ⟨by rfl, C6_species_spec_tokens "A+A->B+B" netAA (by rfl)⟩

end CRN
